import Mathlib

/-
  Verification development for the obsidian-linter rule engine.

  Texts are shallowly embedded as lists of characters.  Functions present in
  the repository sources (src/src/rules.ts, the rule builders in
  src/unnamed/part_000, src/src/rules/...) are translated directly; utility
  modules that the sources import but that are not part of the corpus
  (src/utils/yaml.ts, src/utils/ignore-types.ts, src/utils/regex.ts,
  src/option.ts, src/linter-error.ts) are modelled from the specification and
  are marked as such in their doc comments.
-/

abbrev Text := List Char

/-- JS String.prototype.replace with a plain-string pattern: replaces only the
first occurrence of the pattern, or returns the text unchanged when the
pattern does not occur. -/
def replaceFirst (pat repl : Text) : Text → Text
  | [] => if pat.isPrefixOf ([] : Text) then repl else []
  | c :: rest =>
    if pat.isPrefixOf (c :: rest) then repl ++ (c :: rest).drop pat.length
    else c :: replaceFirst pat repl rest

/-- Split a text at every newline character; the result always has one more
entry than the number of newlines. -/
def splitLines : Text → List Text
  | [] => [[]]
  | c :: rest =>
    if c = '\n' then [] :: splitLines rest
    else
      match splitLines rest with
      | [] => [[c]]
      | l :: ls => (c :: l) :: ls

/-- The lines of a text: a trailing newline does not contribute an empty
final line. -/
def toLines (t : Text) : List Text :=
  let ls := splitLines t
  if ls.getLast? = some ([] : Text) then ls.dropLast else ls

/-- Join lines, terminating every line with a newline. -/
def unlines (ls : List Text) : Text :=
  ls.foldr (fun l acc => l ++ '\n' :: acc) []

/-- Whether a text ends with a newline character. -/
def endsWithNL (t : Text) : Bool := t.getLast? = some '\n'

/-- Join lines with newline separators and no final newline. -/
def joinSep : List Text → Text
  | [] => []
  | [l] => l
  | l :: l2 :: ls => l ++ '\n' :: joinSep (l2 :: ls)

/-- Join lines back into a text, re-attaching a final newline exactly when the
original text had one. -/
def rejoinLines (endsNL : Bool) (ls : List Text) : Text :=
  if endsNL then unlines ls else joinSep ls

/-- Remove leading and trailing spaces. -/
def trimSpaces (t : Text) : Text :=
  ((t.dropWhile (fun c => c = ' ')).reverse.dropWhile (fun c => c = ' ')).reverse

/-- Split a text on a separator character. -/
def splitOnChar (sep : Char) : Text → List Text
  | [] => [[]]
  | c :: rest =>
    if c = sep then [] :: splitOnChar sep rest
    else
      match splitOnChar sep rest with
      | [] => [[c]]
      | l :: ls => (c :: l) :: ls

def squote : Char := Char.ofNat 39

/-- Modelled from the spec (§4.2 escapeIfNeeded): "outer characters match a
known escape character".  The known escape characters are the single and the
double quote. -/
def isValueEscapedAlready (v : Text) : Bool :=
  decide (v.length > 1) &&
    ((v.head? = some '"' && v.getLast? = some '"') ||
     (v.head? = some squote && v.getLast? = some squote))

/-- Strip one pair of matching outer quotes, when present. -/
def stripOuterQuotes (v : Text) : Text :=
  if isValueEscapedAlready v then (v.drop 1).dropLast else v

/-- Whether the text contains the two-character sequence colon-space. -/
def hasColonSpace : Text → Bool
  | [] => false
  | ':' :: ' ' :: _ => true
  | _ :: rest => hasColonSpace rest

/-- Leading characters that make a scalar value structurally ambiguous. -/
def yamlSpecialLeadChars : List Char :=
  ['[', ']', '-', '*', '&', '!', '|', '>', '%', '@', ':', '?', ',', '#', '"', squote]

/-- Boolean- or null-like literal texts. -/
def isBoolishText (v : Text) : Bool :=
  decide (v ∈ ["true".data, "false".data, "null".data, "yes".data, "no".data])

/-- Modelled from the spec (§4.2 escapeIfNeeded): a value needs escaping when
it has a leading special character, an internal colon-space sequence, or is
boolean/null-like literal text. -/
def valueNeedsEscape (v : Text) : Bool :=
  match v with
  | [] => false
  | c :: _ => c ∈ yamlSpecialLeadChars || hasColonSpace v || isBoolishText v

/-- Modelled from the spec (§4.2 escapeIfNeeded, src/utils/yaml.ts is absent):
wraps the value in the escape character when it needs escaping or when
forced; a value that already appears escaped is returned unchanged, so
escaping never wraps twice. -/
def escapeStringIfNecessaryAndPossible (v : Text) (escapeCharacter : Char)
    (forceEscape : Bool) : Text :=
  if isValueEscapedAlready v then v
  else if forceEscape || valueNeedsEscape v then escapeCharacter :: v ++ [escapeCharacter]
  else v

/-- Whether a line carries the given key, i.e. starts with the key followed by
a colon. -/
def lineHasKey (key line : Text) : Bool := (key ++ [':']).isPrefixOf line

/-- Whether a line belongs to the multi-line continuation of the preceding
key, i.e. starts with the list-item indentation. -/
def isIndented (l : Text) : Bool := decide (l.head? = some ' ')

/-- Locate the first line carrying the key: returns the lines before it, the
key line itself, its indented continuation lines, and the lines after the
continuation. -/
def findKeySplit (key : Text) : List Text → Option (List Text × Text × List Text × List Text)
  | [] => none
  | l :: ls =>
    if lineHasKey key l then
      some ([], l, ls.takeWhile (fun x => isIndented x), ls.dropWhile (fun x => isIndented x))
    else
      match findKeySplit key ls with
      | none => none
      | some (b, kl, c, a) => some (l :: b, kl, c, a)

/-- The raw value of a located key: the remainder of the key line trimmed of a
single leading space when non-empty, otherwise the indented continuation
lines verbatim, each preceded by its newline. -/
def keyRawValue (key : Text) (keyLine : Text) (cont : List Text) : Text :=
  let rest := keyLine.drop (key.length + 1)
  if rest = [] then cont.foldr (fun l acc => '\n' :: l ++ acc) []
  else
    match rest with
    | ' ' :: r => r
    | r => r

/-- Modelled from the spec (§4.2 getSectionValue, src/utils/yaml.ts is
absent): locate a line starting with the key and a colon; a non-empty
remainder of that line is the value, trimmed of a single leading space;
otherwise the immediately following indented lines form a multi-line value
returned verbatim (each line preceded by its newline); absent keys give
null. -/
def getYamlSectionValueLines (ls : List Text) (key : Text) : Option Text :=
  match findKeySplit key ls with
  | none => none
  | some (_, kl, c, _) => some (keyRawValue key kl c)

def getYamlSectionValue (yaml : Text) (key : Text) : Option Text :=
  getYamlSectionValueLines (toLines yaml) key

/-- Replace the full value span (the key line's remainder and any indented
continuation) of the first line carrying the key. -/
def setYamlSectionLines (ls : List Text) (key newRaw : Text) : List Text :=
  match findKeySplit key ls with
  | some (b, _, _, a) => b ++ toLines (key ++ ':' :: newRaw ++ ['\n']) ++ a
  | none => ls ++ toLines (key ++ ':' :: newRaw ++ ['\n'])

/-- Modelled from the spec (§4.2 setSectionValue, src/utils/yaml.ts is
absent): when the key exists its raw value span is replaced; otherwise a new
entry is appended at the end of the block body with a trailing newline. -/
def setYamlSection (yaml key newRaw : Text) : Text :=
  if (findKeySplit key (toLines yaml)).isSome then
    rejoinLines (endsWithNL yaml) (setYamlSectionLines (toLines yaml) key newRaw)
  else yaml ++ key ++ ':' :: newRaw ++ ['\n']

/-- A line-canonical text state for the metadata-block reasoning: its lines
are newline-free and the line list is non-empty with a non-empty last
line. -/
def BodyWF (t : Text) : Prop :=
  (∀ l ∈ toLines t, '\n' ∉ l) ∧ toLines t ≠ [] ∧
    (toLines t).getLast? ≠ some ([] : Text)

/-- The skip guard of the ForceYamlEscape loop (src/unnamed/part_000 line
321): a multi-line value, a value beginning with space-bracket, or an
already escaped value is not touched. -/
def protectedYamlValue (v : Text) : Bool :=
  v.contains '\n' || (" [".data).isPrefixOf v || isValueEscapedAlready v

/-- Modelled from the spec (§4.2 removeSection, src/utils/yaml.ts is absent):
deletes the key line and its multi-line continuation. -/
def removeYamlSection (yaml key : Text) : Text :=
  match findKeySplit key (toLines yaml) with
  | some (b, _, _, a) => rejoinLines (endsWithNL yaml) (b ++ a)
  | none => yaml

/-- Scan for the closing delimiter line of a metadata block, accumulating the
current line (reversed) and the completed body lines (reversed): a completed
line equal to three dashes closes the block and the scan returns the body
lines together with the text after the closing line. -/
def findYamlCloseAux (cur : Text) (acc : List Text) : Text → Option (List Text × Text)
  | [] => if cur.reverse = "---".data then some (acc.reverse, []) else none
  | c :: rest =>
    if c = '\n' then
      if cur.reverse = "---".data then some (acc.reverse, rest)
      else findYamlCloseAux [] (cur.reverse :: acc) rest
    else findYamlCloseAux (c :: cur) acc rest

/-- The body lines before the first closing delimiter line, and the text after
that line. -/
def findYamlClose (t : Text) : Option (List Text × Text) := findYamlCloseAux [] [] t

/-- Modelled from the spec (yamlRegex in src/utils/regex.ts is absent): a
document starts with a metadata block when its first line is the three-dash
delimiter and a later line closes the block.  Returns the inner body lines
and the text following the closing delimiter line. -/
def matchYamlDoc (t : Text) : Option (List Text × Text) :=
  if ("---\n".data).isPrefixOf t then findYamlClose (t.drop 4) else none

/-- Modelled from the spec (§4.2 ensureBlockExists, initYAML in
src/utils/yaml.ts is absent): inserts an empty leading metadata block when
none is present. -/
def initYAML (t : Text) : Text :=
  match matchYamlDoc t with
  | some _ => t
  | none => "---\n---\n".data ++ t

/-- Modelled from the spec (formatYAML in src/utils/yaml.ts is absent):
applies a rewrite to the matched leading metadata block (delimiters
included) and splices the result back over the first occurrence of the
original block text. -/
def formatYAML (t : Text) (f : Text → Text) : Text :=
  match matchYamlDoc t with
  | none => t
  | some (ls, _) =>
    let oldYaml := "---\n".data ++ unlines ls ++ "---".data
    replaceFirst oldYaml (f oldYaml) t

/-- A parsed YAML value of the subset of encodings the rules need: null, a
scalar string, or a flat sequence of strings. -/
inductive YamlScalarOrSeq
  | ynull
  | ystr (s : Text)
  | yseq (xs : List Text)
deriving DecidableEq, Repr

/-- A parsed YAML document: a lone scalar value or a flat key/value mapping. -/
inductive YamlDoc
  | scalar (v : YamlScalarOrSeq)
  | obj (entries : List (Text × YamlScalarOrSeq))
deriving DecidableEq, Repr

/-- Split a line at the first colon that ends the key (followed by a space or
by the end of the line). -/
def keySplit : Text → Option (Text × Text)
  | [] => none
  | ':' :: [] => some ([], [])
  | ':' :: ' ' :: r => some ([], r)
  | c :: r => (keySplit r).map (fun p => (c :: p.1, p.2))

/-- Interpret a line as a top-level key/value line, when it neither is
indented nor starts a list item or comment. -/
def lineKeySplit (l : Text) : Option (Text × Text) :=
  match l with
  | [] => none
  | c :: _ =>
    if c = ' ' || c = '-' || c = '#' then none
    else
      match keySplit l with
      | none => none
      | some (k, v) => if k = [] then none else some (k, v)

/-- Interpret a line as an indented list item, stripping the dash marker and
one pair of outer quotes. -/
def parseItemLine (l : Text) : Option Text :=
  match l.dropWhile (fun c => c = ' ') with
  | '-' :: ' ' :: r => some (stripOuterQuotes (trimSpaces r))
  | '-' :: [] => some []
  | _ => none

/-- Parse a flow-style or plain scalar value text. -/
def parseScalarText (v : Text) : YamlScalarOrSeq :=
  let tv := trimSpaces v
  if tv = [] then .ynull
  else
    match tv with
    | '[' :: _ =>
      if tv.getLast? = some ']' then
        let inner := (tv.drop 1).dropLast
        if trimSpaces inner = [] then .yseq []
        else .yseq ((splitOnChar ',' inner).map (fun s => stripOuterQuotes (trimSpaces s)))
      else .ystr (stripOuterQuotes tv)
    | _ => .ystr (stripOuterQuotes tv)

/-- Parse the key/value entries of a document, gathering indented list items
(and skipping blank lines) after a key whose own line carries no value; the
fuel bounds the recursion by the number of lines. -/
def parseEntriesFuel : Nat → List Text → List (Text × YamlScalarOrSeq)
  | 0, _ => []
  | _ + 1, [] => []
  | fuel + 1, l :: rest =>
    match lineKeySplit l with
    | some (k, v) =>
      if trimSpaces v = [] then
        let cont := rest.takeWhile (fun x => (lineKeySplit x).isNone)
        let items := cont.filterMap parseItemLine
        (k, if items = [] then .ynull else .yseq items) ::
          parseEntriesFuel fuel (rest.dropWhile (fun x => (lineKeySplit x).isNone))
      else (k, parseScalarText v) :: parseEntriesFuel fuel rest
    | none => parseEntriesFuel fuel rest

def parseEntries (ls : List Text) : List (Text × YamlScalarOrSeq) :=
  parseEntriesFuel (ls.length + 1) ls

/-- Modelled from the spec (loadYAML in src/utils/yaml.ts is absent): a
minimal loader for the subset of encodings the rules need; an empty document
loads as an empty mapping. -/
def loadYAML (t : Text) : YamlDoc :=
  let entries := parseEntries (toLines t)
  if entries = [] then
    if trimSpaces (t.filter (fun c => c ≠ '\n')) = [] then .obj []
    else .scalar (parseScalarText (t.filter (fun c => c ≠ '\n')))
  else .obj entries

/-- Loading a possibly-null section value: null loads as null. -/
def loadYAMLOpt : Option Text → YamlDoc
  | none => .scalar .ynull
  | some s => loadYAML s

/-- The keys of a parsed document (Object.keys). -/
def yamlDocKeys : YamlDoc → List Text
  | .scalar _ => []
  | .obj entries => entries.map (fun e => e.1)

/-- Look a key up in a parsed document (JS property access, undefined when
absent). -/
def lookupYamlDoc (d : YamlDoc) (k : Text) : Option YamlScalarOrSeq :=
  match d with
  | .scalar _ => none
  | .obj entries => entries.lookup k

/-- A parsed document viewed as an optional scalar string. -/
def yamlStrOpt : YamlDoc → Option Text
  | .scalar (.ystr s) => some s
  | _ => none

/-- The array encodings a stored value can use.  The two normal formats write
real arrays; the two special formats keep a lone string as a plain scalar. -/
inductive ArrayFormat
  | singleLine
  | multiLine
  | singleStringToSingleLine
  | singleStringToMultiLine
deriving DecidableEq, Repr

/-- Render items as a bracketed single-line array value (with its leading
space). -/
def renderSingleLineArray (xs : List Text) : Text :=
  ' ' :: '[' :: List.intercalate ", ".data xs ++ [']']

/-- Render items as an indented multi-line array value (starting with the
newline that follows the key line). -/
def renderMultiLineArray (xs : List Text) : Text :=
  (xs.map (fun x => "\n  - ".data ++ x)).flatten

/-- Modelled from the spec (§4.2 formatValue, formatYamlArrayValue in
src/utils/yaml.ts is absent): serializes a single string or a list into the
chosen target style; a single string under a normal array style still
produces a one-element array, while the special single-string styles keep a
lone value as a plain scalar. -/
def formatYamlArrayValue (v : Text ⊕ List Text) (style : ArrayFormat) : Text :=
  match style, v with
  | .multiLine, .inl s => renderMultiLineArray [s]
  | .multiLine, .inr [] => " []".data
  | .multiLine, .inr xs => renderMultiLineArray xs
  | .singleLine, .inl s => renderSingleLineArray [s]
  | .singleLine, .inr xs => renderSingleLineArray xs
  | .singleStringToSingleLine, .inl s => ' ' :: s
  | .singleStringToSingleLine, .inr [x] => ' ' :: x
  | .singleStringToSingleLine, .inr xs => renderSingleLineArray xs
  | .singleStringToMultiLine, .inl s => ' ' :: s
  | .singleStringToMultiLine, .inr [x] => ' ' :: x
  | .singleStringToMultiLine, .inr xs => renderMultiLineArray xs

/-- Modelled from the spec (§4.2 classifyValue and toStringOrArray,
splitValueIfSingleOrMultilineArray in src/utils/yaml.ts is absent): an empty
raw value is null, a value with a line break is split into its list items, a
bracketed value is split at commas, anything else is a single string. -/
def splitValueIfSingleOrMultilineArray (v : Text) : Option (Text ⊕ List Text) :=
  if v = [] then none
  else if v.contains '\n' then some (.inr ((toLines v).filterMap parseItemLine))
  else
    let tv := trimSpaces v
    match tv with
    | '[' :: _ =>
      if tv.getLast? = some ']' then
        let inner := (tv.drop 1).dropLast
        if trimSpaces inner = [] then some (.inr [])
        else some (.inr ((splitOnChar ',' inner).map (fun s => stripOuterQuotes (trimSpaces s))))
      else some (.inl (stripOuterQuotes tv))
    | _ => some (.inl (stripOuterQuotes tv))

/-- Modelled from the spec (convertAliasValueToStringOrStringArray in
src/utils/yaml.ts is absent): normalizes a parsed alias value; every element
is already a string in this embedding. -/
def convertAliasValueToStringOrStringArray (v : Option (Text ⊕ List Text)) :
    Option (Text ⊕ List Text) := v

/-- A decomposition of a document into unprotected text and protected spans,
as produced by the ignore-kind recognizers. -/
inductive Seg
  | keep (s : Text)
  | prot (s : Text)
deriving DecidableEq, Repr

/-- The flattened text of a decomposition. -/
def flattenSegs : List Seg → Text
  | [] => []
  | .keep s :: rest => s ++ flattenSegs rest
  | .prot s :: rest => s ++ flattenSegs rest

/-- The protected span texts of a decomposition, in order. -/
def protTexts : List Seg → List Text
  | [] => []
  | .keep _ :: rest => protTexts rest
  | .prot s :: rest => s :: protTexts rest

def phOpen : Char := Char.ofNat 1
def phMark : Char := Char.ofNat 3
def phClose : Char := Char.ofNat 2

/-- The reversible placeholder token substituted for the i-th protected span;
built from control characters so that it is inert for the rewrite
heuristics of every rule. -/
def placeholder (i : Nat) : Text :=
  phOpen :: List.replicate i phMark ++ [phClose]

/-- Render a decomposition into masked text, numbering the protected spans
left to right starting at the given index. -/
def maskAux : List Seg → Nat → Text
  | [], _ => []
  | .keep s :: rest, n => s ++ maskAux rest n
  | .prot _ :: rest, n => placeholder n ++ maskAux rest (n + 1)

/-- The masked text of a decomposition. -/
def maskText (d : List Seg) : Text := maskAux d 0

/-- Restore originals over a masked text in a single left-to-right scan,
tracked by a state that counts the marks of a partially read placeholder:
each well-formed placeholder token is replaced by the original span it
indexes; restored text is never re-scanned, so a placeholder-lookalike
inside an original is not re-expanded. -/
def unmaskAux (origs : List Text) : Option Nat → Text → Text
  | none, [] => []
  | some k, [] => phOpen :: List.replicate k phMark
  | none, c :: rest =>
    if c = phOpen then unmaskAux origs (some 0) rest
    else c :: unmaskAux origs none rest
  | some k, c :: rest =>
    if c = phMark then unmaskAux origs (some (k + 1)) rest
    else if c = phClose then origs.getD k [] ++ unmaskAux origs none rest
    else if c = phOpen then (phOpen :: List.replicate k phMark) ++ unmaskAux origs (some 0) rest
    else (phOpen :: List.replicate k phMark) ++ c :: unmaskAux origs none rest

def unmaskScan (origs : List Text) (t : Text) : Text := unmaskAux origs none t

/-- Find the first occurrence of a pattern: returns the text before it and the
text starting at it. -/
def findSub (pat : Text) : Text → Option (Text × Text)
  | [] => if pat = [] then some ([], []) else none
  | c :: r =>
    if pat.isPrefixOf (c :: r) then some ([], c :: r)
    else (findSub pat r).map (fun p => (c :: p.1, p.2))

/-- Prepend unprotected text onto a decomposition, merging with a leading
unprotected segment. -/
def prependKeep (s : Text) : List Seg → List Seg
  | Seg.keep k :: rest => .keep (s ++ k) :: rest
  | segs => .keep s :: segs

/-- Recognize non-overlapping delimited spans, fuelled by the text length. -/
def splitDelimitedFuel (opener closer : Text) : Nat → Text → List Seg
  | 0, t => [.keep t]
  | fuel + 1, t =>
    match findSub opener t with
    | none => [.keep t]
    | some (before, rest) =>
      match findSub closer (rest.drop opener.length) with
      | none => [.keep t]
      | some (mid, rest2) =>
        .keep before :: .prot (opener ++ mid ++ closer) ::
          splitDelimitedFuel opener closer fuel (rest2.drop closer.length)

/-- Recognize spans enclosed by a fixed opening and closing delimiter. -/
def splitDelimited (opener closer : Text) (t : Text) : List Seg :=
  splitDelimitedFuel opener closer (t.length + 1) t

/-- Characters allowed inside a tag after the hash sign. -/
def isTagChar (c : Char) : Bool :=
  c.isAlphanum || c = '_' || c = '-' || c = '/'

/-- Recognize hash tags, fuelled by the text length. -/
def recognizeTagFuel : Nat → Text → List Seg
  | 0, t => [.keep t]
  | _ + 1, [] => [.keep []]
  | fuel + 1, c :: r =>
    if c = '#' then
      let body := r.takeWhile isTagChar
      if body = [] then prependKeep [c] (recognizeTagFuel fuel r)
      else .keep [] :: .prot (c :: body) :: recognizeTagFuel fuel (r.drop body.length)
    else prependKeep [c] (recognizeTagFuel fuel r)

/-- Recognize the leading metadata block; the recognized span excludes the
final newline so that masking preserves the line structure of the rest. -/
def recognizeYamlSeg (t : Text) : List Seg :=
  match matchYamlDoc t with
  | none => [.keep t]
  | some (ls, after) =>
    let block := "---\n".data ++ unlines ls ++ "---".data
    if t = block ++ '\n' :: after then [.prot block, .keep ('\n' :: after)]
    else if t = block ++ after then [.prot block, .keep after]
    else [.keep t]

def tickChar : Char := Char.ofNat 96

/-- The catalog of ignore kinds (IgnoreTypes in src/utils/ignore-types.ts). -/
inductive IgnoreKind
  | code
  | inlineCode
  | yaml
  | image
  | link
  | wikiLink
  | tag
  | italics
  | bold
  | math
  | inlineMath
deriving DecidableEq, Repr

/-- Modelled from the spec (§4.1, src/utils/ignore-types.ts is absent): one
recognizer per ignore kind, scanning a stretch of so-far-unprotected text
for the spans of that kind.  Emphasis and link recognizers use the simple
delimiter forms; nested constructs are out of scope per the spec. -/
def recognizeKindSeg (k : IgnoreKind) (s : Text) : List Seg :=
  match k with
  | .code => splitDelimited [tickChar, tickChar, tickChar] [tickChar, tickChar, tickChar] s
  | .inlineCode => splitDelimited [tickChar] [tickChar] s
  | .yaml => recognizeYamlSeg s
  | .image => splitDelimited "![".data ")".data s
  | .link => splitDelimited "[".data ")".data s
  | .wikiLink => splitDelimited "[[".data "]]".data s
  | .tag => recognizeTagFuel (s.length + 1) s
  | .italics => splitDelimited "*".data "*".data s
  | .bold => splitDelimited "**".data "**".data s
  | .math => splitDelimited "$$".data "$$".data s
  | .inlineMath => splitDelimited "$".data "$".data s

/-- Run a recognizer over the unprotected segments only: spans already covered
by an earlier kind are not re-matched (first-match-wins). -/
def applyToKeeps (f : Text → List Seg) : List Seg → List Seg
  | [] => []
  | .keep s :: rest => f s ++ applyToKeeps f rest
  | .prot s :: rest => .prot s :: applyToKeeps f rest

/-- Decompose a document by the ordered ignore kinds. -/
def recognize (kinds : List IgnoreKind) (t : Text) : List Seg :=
  kinds.foldl (fun d k => applyToKeeps (recognizeKindSeg k) d) [Seg.keep t]

/-- Modelled from the spec (§4.1, ignoreListOfTypes in
src/utils/ignore-types.ts is absent): masks the spans of the ordered ignore
kinds with placeholders, runs the rewrite over the masked text, and then
restores the original spans verbatim in the rewrite's output. -/
def ignoreListOfTypes (kinds : List IgnoreKind) (t : Text) (f : Text → Text) : Text :=
  let d := recognize kinds t
  unmaskScan (protTexts d) (f (maskText d))

/-- A rule option's stored value. -/
inductive OptVal
  | boolVal (b : Bool)
  | strVal (s : Text)
  | listVal (xs : List Text)
deriving DecidableEq, Repr

/-- Modelled from the spec (Option in src/option.ts is absent): an option
descriptor carries a name, a description, a default value, and the owning
rule's name. -/
structure RuleOption where
  name : Text
  description : Text
  defaultValue : OptVal
  ruleName : Text
deriving DecidableEq, Repr

/-- RuleType from src/src/rules.ts. -/
inductive RuleType
  | yaml
  | heading
  | footnote
  | content
  | spacing
  | paste
deriving DecidableEq, Repr

/-- Rule from src/src/rules.ts: name, description, type, option schema and the
special-execution-order flag; the rewrite function itself is not part of the
record in this embedding and is bound per rule. -/
structure Rule where
  name : Text
  description : Text
  ruleType : RuleType
  options : List RuleOption
  hasSpecialExecutionOrder : Bool
deriving DecidableEq, Repr

/-- The Rule constructor (src/src/rules.ts lines 76-97): an enabled boolean
option named after the rule's description is unshifted in front of the
declared options and every option's ruleName is set. -/
def mkRule (name description : Text) (ruleType : RuleType)
    (options : List RuleOption) (hasSpecialExecutionOrder : Bool) : Rule :=
  let withEnabled := RuleOption.mk description [] (.boolVal false) [] :: options
  Rule.mk name description ruleType
    (withEnabled.map (fun o => RuleOption.mk o.name o.description o.defaultValue name))
    hasSpecialExecutionOrder

/-- Rule.alias (src/src/rules.ts lines 99-101): spaces become hyphens, then
everything is lowercased. -/
def ruleAlias (r : Rule) : Text :=
  (r.name.map (fun c => if c = ' ' then '-' else c)).map Char.toLower

/-- Rule.getDefaultOptions (src/src/rules.ts lines 103-111): an object built
by assigning each option's default under its name, in schema order; a later
assignment to the same name overwrites the earlier one in place. -/
def dictInsertOpt : List (Text × OptVal) → Text → OptVal → List (Text × OptVal)
  | [], k, v => [(k, v)]
  | (k2, v2) :: rest, k, v =>
    if k2 = k then (k, v) :: rest else (k2, v2) :: dictInsertOpt rest k v

def getDefaultOptions (r : Rule) : List (Text × OptVal) :=
  r.options.foldl (fun acc o => dictInsertOpt acc o.name o.defaultValue) []

/-- LinterSettings (src/src/rules.ts lines 32-44), restricted to the stored
per-rule option maps, the only field the embedded operations read. -/
structure LinterSettings where
  ruleConfigs : List (Text × List (Text × OptVal))
deriving DecidableEq, Repr

/-- Rule.getOptions (src/src/rules.ts lines 113-115): the stored option map
for the rule's name, undefined when the settings hold no entry. -/
def getOptions (r : Rule) (settings : LinterSettings) : Option (List (Text × OptVal)) :=
  settings.ruleConfigs.lookup r.name

/-- Rule.enabledOptionName (src/src/rules.ts lines 123-125). -/
def enabledOptionName (r : Rule) : Text :=
  match r.options with
  | [] => []
  | o :: _ => o.name

/-- The fixed category order (RuleTypeOrder, src/src/rules.ts line 156). -/
def RuleTypeOrder : List RuleType :=
  [.yaml, .heading, .footnote, .content, .spacing, .paste]

def ruleTypeIndex (t : RuleType) : Nat := RuleTypeOrder.findIdx (fun x => x = t)

/-- Lexicographic comparison of names by code point (the comparator's
localeCompare is modelled as code-point order). -/
def textLE : Text → Text → Bool
  | [], _ => true
  | _ :: _, [] => false
  | a :: as, b :: bs => if a = b then textLE as bs else decide (a < b)

/-- The sort comparator of registerRule (src/src/rules.ts line 206): category
index first, then name. -/
def ruleCompareLE (a b : Rule) : Bool :=
  decide (ruleTypeIndex a.ruleType < ruleTypeIndex b.ruleType) ||
    (decide (ruleTypeIndex a.ruleType = ruleTypeIndex b.ruleType) && textLE a.name b.name)

def ruleLEProp (a b : Rule) : Prop := ruleCompareLE a b = true

instance : DecidableRel ruleLEProp := fun a b =>
  inferInstanceAs (Decidable (ruleCompareLE a b = true))

/-- The registry state: the ordered rules list and the alias lookup map
(rules and rulesDict, src/src/rules.ts lines 197-202). -/
structure RegistryState where
  rules : List Rule
  rulesDict : List (Text × Rule)
deriving DecidableEq, Repr

def emptyRegistry : RegistryState := RegistryState.mk [] []

/-- JS object property assignment on the alias map: an existing binding is
replaced in place, a new one is appended. -/
def dictInsertRule : List (Text × Rule) → Text → Rule → List (Text × Rule)
  | [], k, v => [(k, v)]
  | (k2, v2) :: rest, k, v =>
    if k2 = k then (k, v) :: rest else (k2, v2) :: dictInsertRule rest k v

/-- registerRule (src/src/rules.ts lines 204-208): push the rule, re-sort the
whole list by the comparator, and assign the alias map entry; the sort is
modelled by insertion sort over the same comparator. -/
def registerRule (r : Rule) (s : RegistryState) : RegistryState :=
  RegistryState.mk (List.insertionSort ruleLEProp (s.rules ++ [r]))
    (dictInsertRule s.rulesDict (ruleAlias r) r)

/-- The reconstructed key-and-value text that getDisabledRules re-parses
(src/src/rules.ts lines 175-176): the key, a newline or space separator
depending on whether the value is multi-line, and the raw value. -/
def disabledRulesKeyAndValue (v : Text) : Text :=
  (if v.contains '\n' then "disabled rules:\n".data else "disabled rules: ".data) ++ v

/-- getDisabledRules (src/src/rules.ts lines 163-195), with the module-level
rules list passed explicitly as the registry. -/
def getDisabledRules (registry : List Rule) (text : Text) : List Text :=
  match matchYamlDoc text with
  | none => []
  | some (ls, _) =>
    let yamlText := unlines ls
    match getYamlSectionValue yamlText ("disabled rules".data) with
    | none => []
    | some v =>
      match lookupYamlDoc (loadYAML (disabledRulesKeyAndValue v)) ("disabled rules".data) with
      | none => []
      | some .ynull => []
      | some (.ystr s) =>
        if s = [] then []
        else if s = "all".data then registry.map ruleAlias
        else [s]
      | some (.yseq xs) =>
        if "all".data ∈ xs then registry.map ruleAlias else xs

/-- The error values a rule's rewrite can raise: a YAMLException from the
loader or any other error. -/
inductive JsError
  | yamlException (reason : Text)
  | generic (message : Text)
deriving DecidableEq, Repr

/-- The message property of an error. -/
def jsErrorMessage : JsError → Text
  | .yamlException reason => reason
  | .generic message => message

/-- Error.prototype.toString: the error name, a colon and a space, then the
message. -/
def jsErrorToString : JsError → Text
  | .yamlException reason => "YAMLException: ".data ++ reason
  | .generic message => "Error: ".data ++ message

/-- JS text.substring(text.indexOf(sep) + 1): everything after the first
colon, or the whole text when there is none. -/
def substringAfterFirstColon (t : Text) : Text :=
  match t.findIdx? (fun c => c = ':') with
  | none => t
  | some i => t.drop (i + 1)

/-- Modelled from the spec (§7, src/linter-error.ts is absent): the single
externally visible error, carrying a human-readable message and the original
cause. -/
structure LinterError where
  message : Text
  originalError : JsError
deriving DecidableEq, Repr

/-- wrapLintError (src/src/rules.ts lines 210-220): builds the per-kind error
message and unconditionally throws a LinterError quoting the rule name and
carrying the original error. -/
def wrapLintError (error : JsError) (ruleName : Text) : Except LinterError Unit :=
  let errorMessage : Text :=
    match error with
    | .yamlException _ =>
      "error in the yaml: ".data ++ substringAfterFirstColon (jsErrorToString error)
    | .generic _ => "unknown error: ".data ++ jsErrorMessage error
  Except.error
    (LinterError.mk ('"' :: ruleName ++ '"' :: " encountered an ".data ++ errorMessage) error)

/-- The canonical alias keys checked in priority order (OBSIDIAN_ALIASES_KEYS
in src/utils/yaml.ts, modelled from the spec's key/alias resolution). -/
def OBSIDIAN_ALIASES_KEYS : List Text := ["aliases".data, "alias".data]

def OBSIDIAN_ALIAS_KEY_PLURAL : Text := "aliases".data

def LINTER_ALIASES_HELPER_KEY : Text := "linter-yaml-title-alias".data

/-- Modelled from the spec (getFirstHeaderOneText in src/utils/regex.ts is
absent): the text of the first H1 heading line, or none. -/
def getFirstHeaderOneText (t : Text) : Option Text :=
  (toLines t).findSome? (fun l =>
    if ("# ".data).isPrefixOf l then some (l.drop 2) else none)

/-- YamlTitleAliasOptions (src/unnamed/part_000 lines 9-22); the fileName is
optional because the host supplies it and it has no declared default. -/
structure YamlTitleAliasOptions where
  preserveExistingAliasesSectionStyle : Bool := true
  keepAliasThatMatchesTheFilename : Bool := false
  useYamlKeyToKeepTrackOfOldFilenameOrHeading : Bool := true
  aliasArrayStyle : ArrayFormat := ArrayFormat.multiLine
  fileName : Option Text := none
  defaultEscapeCharacter : Char := '"'
deriving DecidableEq, Repr

/-- JS loose equality of a string against a string-or-array value: an array is
coerced to its comma-joined string. -/
def jsEqStrVal (s : Text) (v : Text ⊕ List Text) : Bool :=
  match v with
  | .inl t => s = t
  | .inr xs => s = List.intercalate [','] xs

/-- JS loose equality of the current alias value against the new one: strings
compare by content, two arrays compare by reference (the sameRef flag records
whether the new value is the very array that was mutated in place), and a
string against an array coerces the array to its comma-joined string. -/
def jsEqValVal (cur : Option (Text ⊕ List Text)) (new : Text ⊕ List Text)
    (sameRef : Bool) : Bool :=
  match cur, new with
  | none, _ => false
  | some (.inl a), .inl b => a = b
  | some (.inl a), .inr xs => a = List.intercalate [','] xs
  | some (.inr xs), .inl b => List.intercalate [','] xs = b
  | some (.inr _), .inr _ => sameRef

/-- getNewAliasValue (src/unnamed/part_000 lines 57-97).  The boolean result
records whether the returned array is the caller's array mutated in place
(splice or indexed assignment), which the caller's reference equality test
observes. -/
def getNewAliasValue (title : Text) (previousTitle : Option Text)
    (originalValue : Option (Text ⊕ List Text)) (shouldRemoveTitle : Bool) :
    (Text ⊕ List Text) × Bool :=
  let res : (Text ⊕ List Text) × Bool :=
    match originalValue with
    | none => ((if shouldRemoveTitle then .inl [] else .inl title), false)
    | some (.inl s) =>
      if shouldRemoveTitle then (.inl (if s = title then [] else s), false)
      else if previousTitle = some s then (.inl title, false)
      else (.inr [title, s], false)
    | some (.inr xs) =>
      match previousTitle with
      | some pt =>
        match xs.findIdx? (fun x => x = pt) with
        | some i =>
          ((.inr (if shouldRemoveTitle then xs.eraseIdx i else xs.set i title)), true)
        | none => (.inr xs, true)
      | none =>
        match xs.findIdx? (fun x => x = title) with
        | some i =>
          if shouldRemoveTitle then (.inr (xs.eraseIdx i), true) else (.inr xs, true)
        | none =>
          if shouldRemoveTitle then (.inr xs, true) else (.inr (title :: xs), false)
  match res with
  | (.inl s, _) => if s = [] then (.inl [], false) else res
  | (.inr xs, _) => if xs.length = 0 then (.inl [], false) else res

/-- The ^bracket test of src/unnamed/part_000 line 116: the value matches
the anchored bracket regex. -/
def jsMatchBracketArray (v : Text) : Bool :=
  match v with
  | '[' :: r => r.contains ']'
  | _ => false

/-- YamlTitleAlias.apply (src/unnamed/part_000 lines 38-152). -/
def yamlTitleAliasApply (text0 : Text) (options : YamlTitleAliasOptions) : Text :=
  let text := initYAML text0
  let title0 :=
    ignoreListOfTypes [.code, .yaml, .tag] text
      (fun s => (getFirstHeaderOneText s).getD [])
  let titleOpt : Option Text := if title0 = [] then options.fileName else some title0
  match matchYamlDoc text with
  | none => text
  | some (bodyLines, _) =>
    let yaml := unlines bodyLines
    let shouldRemoveTitleAlias :=
      !options.keepAliasThatMatchesTheFilename && titleOpt = options.fileName
    let newYaml := replaceFirst ("\n---".data) [] (replaceFirst ("---\n".data) [] yaml)
    let parsedYaml := loadYAML yaml
    let previousTitle : Option Text :=
      yamlStrOpt (loadYAMLOpt (getYamlSectionValue yaml LINTER_ALIASES_HELPER_KEY))
    let title :=
      escapeStringIfNecessaryAndPossible (titleOpt.getD [])
        options.defaultEscapeCharacter false
    let yamlKeys := yamlDocKeys parsedYaml
    let aliasKeyForFile : Option Text :=
      OBSIDIAN_ALIASES_KEYS.find? (fun k => yamlKeys.contains k)
    let newYaml1 :=
      match aliasKeyForFile with
      | some aliasKey =>
        let aliasesValue := (getYamlSectionValue newYaml aliasKey).getD []
        let isEmpty := aliasesValue = []
        let styleAndSingle : ArrayFormat × Bool :=
          if !(aliasesValue.contains '\n') then
            if !(jsMatchBracketArray aliasesValue) then
              (ArrayFormat.singleStringToSingleLine, true)
            else (ArrayFormat.singleLine, false)
          else (ArrayFormat.multiLine, false)
        let currentAliasStyle := styleAndSingle.1
        let isSingleString := styleAndSingle.2
        let currentAliasValue :=
          convertAliasValueToStringOrStringArray
            (splitValueIfSingleOrMultilineArray aliasesValue)
        let res := getNewAliasValue title previousTitle currentAliasValue shouldRemoveTitleAlias
        let newAliasValue := res.1
        let sameRef := res.2
        if newAliasValue = .inl [] then removeYamlSection newYaml aliasKey
        else if options.preserveExistingAliasesSectionStyle then
          if !isEmpty &&
              ((isSingleString && jsEqStrVal title newAliasValue) || !isSingleString ||
                jsEqValVal currentAliasValue newAliasValue sameRef) then
            setYamlSection newYaml aliasKey (formatYamlArrayValue newAliasValue currentAliasStyle)
          else
            setYamlSection newYaml aliasKey
              (formatYamlArrayValue newAliasValue options.aliasArrayStyle)
        else
          setYamlSection newYaml aliasKey
            (formatYamlArrayValue newAliasValue options.aliasArrayStyle)
      | none =>
        if !shouldRemoveTitleAlias then
          setYamlSection newYaml OBSIDIAN_ALIAS_KEY_PLURAL
            (formatYamlArrayValue (.inl title) options.aliasArrayStyle)
        else newYaml
    let newYaml2 :=
      if !options.useYamlKeyToKeepTrackOfOldFilenameOrHeading || shouldRemoveTitleAlias then
        removeYamlSection newYaml1 LINTER_ALIASES_HELPER_KEY
      else setYamlSection newYaml1 LINTER_ALIASES_HELPER_KEY (' ' :: title)
    replaceFirst ("---\n".data ++ yaml ++ "---\n".data)
      ("---\n".data ++ newYaml2 ++ "---\n".data) text

/-- ForceYamlEscapeOptions (src/unnamed/part_000 lines 294-298). -/
structure ForceYamlEscapeOptions where
  defaultEscapeCharacter : Char := '"'
  forceYamlEscape : List Text := []
deriving DecidableEq, Repr

/-- The per-key body of the ForceYamlEscape loop (src/unnamed/part_000 lines
316-328): a missing key is skipped; a multi-line value, a value beginning
with space-bracket, or an already escaped value is skipped; anything else is
force-escaped and written back behind a single space. -/
def forceYamlEscapeStep (escapeCharacter : Char) (text yamlKeyToEscape : Text) : Text :=
  match getYamlSectionValue text yamlKeyToEscape with
  | none => text
  | some keyValue =>
    if protectedYamlValue keyValue then text
    else
      setYamlSection text yamlKeyToEscape
        (' ' :: escapeStringIfNecessaryAndPossible keyValue escapeCharacter true)

/-- ForceYamlEscape.apply (src/unnamed/part_000 lines 314-332). -/
def forceYamlEscapeApply (text : Text) (options : ForceYamlEscapeOptions) : Text :=
  formatYAML text (fun y =>
    options.forceYamlEscape.foldl (forceYamlEscapeStep options.defaultEscapeCharacter) y)

/-- The shape of a masked text as a rewrite function returns it: stretches of
ordinary text interleaved with the placeholder tokens it passed through. -/
inductive MSeg
  | txt (s : Text)
  | ph (i : Nat)
deriving DecidableEq, Repr

/-- Render a placeholder-respecting shape into the flat text it denotes. -/
def renderM : List MSeg → Text
  | [] => []
  | .txt s :: rest => s ++ renderM rest
  | .ph i :: rest => placeholder i ++ renderM rest

/-- The placeholder indices of a shape, in order. -/
def phSeq : List MSeg → List Nat
  | [] => []
  | .txt _ :: rest => phSeq rest
  | .ph i :: rest => i :: phSeq rest

/-- Substitute every placeholder of a shape by the original span it indexes. -/
def substM (origs : List Text) : List MSeg → Text
  | [] => []
  | .txt s :: rest => s ++ substM origs rest
  | .ph i :: rest => origs.getD i [] ++ substM origs rest

/-- Interleave outside texts around protected spans: with one more outside
part than spans, the result is outside, span, outside, span, ..., outside. -/
def interleaveTexts : List Text → List Text → Text
  | [o], [] => o
  | o :: outs, g :: gs => o ++ g ++ interleaveTexts outs gs
  | _, _ => []

/-- A well-formed metadata-block key for the frame reasoning: non-empty, free
of colons and newlines, and not starting with the continuation
indentation. -/
def WFKey (k : Text) : Prop :=
  k ≠ [] ∧ ':' ∉ k ∧ '\n' ∉ k ∧ k.head? ≠ some ' '

instance (k : Text) : Decidable (WFKey k) := by
  unfold WFKey
  infer_instance


/-! Concrete inputs used by the counterexamples and witnesses below. -/

def defaultYTAOptions : YamlTitleAliasOptions :=
  YamlTitleAliasOptions.mk true false true ArrayFormat.multiLine none '"'

def dupAliasYTAOptions : YamlTitleAliasOptions :=
  YamlTitleAliasOptions.mk true false true ArrayFormat.multiLine (some ("F".data)) '"'

def dupAliasInput : Text := "---\naliases:\n  - F\n  - F\n---\n".data

def disabledDemoRegistry : List Rule :=
  [mkRule ("Rule B".data) ("descB".data) RuleType.yaml [] false,
   mkRule ("Rule A".data) ("descA".data) RuleType.spacing [] false]

def disabledArrayAllText : Text := "---\ndisabled rules: [foo, all]\n---\n".data

def demoRuleC5 : Rule := mkRule ("Demo Rule".data) ("demo description".data) RuleType.yaml [] false

def demoSettingsStored : LinterSettings := LinterSettings.mk [("Demo Rule".data, [])]

def demoSettingsEmpty : LinterSettings := LinterSettings.mk []

def collidingRuleA : Rule := mkRule ("My Rule".data) ("first".data) RuleType.yaml [] false

def collidingRuleB : Rule := mkRule ("MY rule".data) ("second".data) RuleType.yaml [] false

/-! The claim theorems. -/

/-- C2: on the single-line document consisting of the H1 heading Title, with
no metadata block and default options, YamlTitleAlias.apply returns a
document with a newly created leading metadata block holding a multi-line
aliases array with the single entry Title and the tracking key
linter-yaml-title-alias with value Title, followed by the unchanged body. -/
theorem yamlTitleAlias_creates_block_scenario :
    yamlTitleAliasApply ("# Title".data) defaultYTAOptions =
      ("---\naliases:\n  - Title\nlinter-yaml-title-alias: Title\n---\n# Title").data := by
  decide

/-- C3: YamlTitleAlias.apply is not idempotent.  On a document whose aliases
list holds the filename twice, with default options and that filename, the
first application removes one occurrence and the second application removes
the aliases section altogether, so applying the rule twice differs from
applying it once. -/
theorem yamlTitleAlias_not_idempotent :
    yamlTitleAliasApply dupAliasInput dupAliasYTAOptions =
        ("---\naliases:\n  - F\n---\n").data ∧
      yamlTitleAliasApply (yamlTitleAliasApply dupAliasInput dupAliasYTAOptions)
          dupAliasYTAOptions = ("---\n---\n").data ∧
      yamlTitleAliasApply (yamlTitleAliasApply dupAliasInput dupAliasYTAOptions)
          dupAliasYTAOptions ≠
        yamlTitleAliasApply dupAliasInput dupAliasYTAOptions := by
  decide

/-- C4, counterexample: on a document whose disabled-rules value parses to the
array of foo and all, the value is not the literal token all, yet
getDisabledRules does not return the parsed array: it returns every
registered alias instead. -/
theorem getDisabledRules_array_counterexample :
    lookupYamlDoc (loadYAML (disabledRulesKeyAndValue ("[foo, all]".data)))
        ("disabled rules".data) = some (YamlScalarOrSeq.yseq ["foo".data, "all".data]) ∧
      getDisabledRules disabledDemoRegistry disabledArrayAllText =
        ["rule-b".data, "rule-a".data] ∧
      getDisabledRules disabledDemoRegistry disabledArrayAllText ≠
        ["foo".data, "all".data] := by
  decide

/-- C5, counterexample: resolving options through Rule.getOptions returns the
stored map unchanged.  For a rule whose schema declares the enabled option
with default false, settings storing an empty map yield an empty resolved
map in which the enabled option's key is absent rather than bound to its
default, and settings with no entry for the rule yield undefined. -/
theorem getOptions_no_fallback_counterexample :
    getOptions demoRuleC5 demoSettingsStored = some [] ∧
      (([] : List (Text × OptVal)).lookup (enabledOptionName demoRuleC5) = none) ∧
      (getDefaultOptions demoRuleC5).lookup (enabledOptionName demoRuleC5) =
        some (OptVal.boolVal false) ∧
      getOptions demoRuleC5 demoSettingsEmpty = none := by
  decide

/-- C6, counterexample: registering two distinct rules whose names normalize
to the same alias raises no error; the second registration silently
overwrites the alias map entry of the first while both rules remain in the
ordered list. -/
theorem registerRule_collision_counterexample :
    ruleAlias collidingRuleA = ruleAlias collidingRuleB ∧
      collidingRuleA ≠ collidingRuleB ∧
      ((registerRule collidingRuleB (registerRule collidingRuleA emptyRegistry)).rulesDict).lookup
          (ruleAlias collidingRuleA) = some collidingRuleB ∧
      (registerRule collidingRuleB (registerRule collidingRuleA emptyRegistry)).rules.length =
        2 := by
  decide

/-- C8: wrapLintError never returns normally: for every error value and rule
name it produces the thrown LinterError, whose message contains the rule's
display name and which carries the original error as its cause. -/
theorem wrapLintError_always_throws (e : JsError) (n : Text) :
    ∃ le : LinterError, wrapLintError e n = Except.error le ∧
      (∃ l r, le.message = l ++ n ++ r) ∧ le.originalError = e := by
  cases e with
  | yamlException reason =>
    exact ⟨_, rfl, ⟨['"'],
      ('"' :: " encountered an ".data) ++ ("error in the yaml: ".data ++
        substringAfterFirstColon (jsErrorToString (JsError.yamlException reason))),
      List.append_assoc _ _ _⟩, rfl⟩
  | generic msg =>
    exact ⟨_, rfl, ⟨['"'],
      ('"' :: " encountered an ".data) ++
        ("unknown error: ".data ++ jsErrorMessage (JsError.generic msg)),
      List.append_assoc _ _ _⟩, rfl⟩

/-! Order lemmas for the registry comparator. -/

theorem textLE_total : ∀ a b : Text, textLE a b = true ∨ textLE b a = true := by
  intro a
  induction a with
  | nil => intro b; left; rfl
  | cons x xs ih =>
    intro b
    cases b with
    | nil => right; rfl
    | cons y ys =>
      by_cases hxy : x = y
      · subst hxy
        rcases ih ys with h | h
        · left; simpa [textLE] using h
        · right; simpa [textLE] using h
      · rcases lt_or_gt_of_ne hxy with h | h
        · left; simp [textLE, hxy, h]
        · right; simp [textLE, Ne.symm hxy, h]

theorem textLE_trans :
    ∀ a b c : Text, textLE a b = true → textLE b c = true → textLE a c = true := by
  intro a
  induction a with
  | nil => intro b c _ _; rfl
  | cons x xs ih =>
    intro b c hab hbc
    cases b with
    | nil => simp [textLE] at hab
    | cons y ys =>
      cases c with
      | nil => simp [textLE] at hbc
      | cons z zs =>
        by_cases hxy : x = y
        · subst hxy
          by_cases hyz : x = z
          · subst hyz
            simp [textLE] at hab hbc ⊢
            exact ih ys zs hab hbc
          · simp [textLE, hyz] at hbc ⊢
            exact hbc
        · by_cases hyz : y = z
          · subst hyz
            simp [textLE, hxy] at hab ⊢
            exact hab
          · simp [textLE, hxy] at hab
            simp [textLE, hyz] at hbc
            have hxz : x < z := lt_trans hab hbc
            simp [textLE, ne_of_lt hxz, hxz]

instance : IsTotal Rule ruleLEProp := by
  constructor
  intro a b
  unfold ruleLEProp ruleCompareLE
  rcases Nat.lt_trichotomy (ruleTypeIndex a.ruleType) (ruleTypeIndex b.ruleType) with h | h | h
  · left; simp [h]
  · rcases textLE_total a.name b.name with hn | hn
    · left; simp [h, hn]
    · right; simp [h.symm, hn]
  · right; simp [h]

instance : IsTrans Rule ruleLEProp := by
  constructor
  intro a b c hab hbc
  unfold ruleLEProp ruleCompareLE at hab hbc ⊢
  simp only [Bool.or_eq_true, Bool.and_eq_true, decide_eq_true_eq] at hab hbc ⊢
  rcases hab with hab | ⟨hab1, hab2⟩
  · rcases hbc with hbc | ⟨hbc1, hbc2⟩
    · exact Or.inl (Nat.lt_trans hab hbc)
    · exact Or.inl (hbc1 ▸ hab)
  · rcases hbc with hbc | ⟨hbc1, hbc2⟩
    · exact Or.inl (hab1 ▸ hbc)
    · exact Or.inr ⟨hab1.trans hbc1, textLE_trans _ _ _ hab2 hbc2⟩

/-- C7: after every call to registerRule the registry's ordered rule list is
sorted by the pair of category index (in the fixed RuleTypeOrder) and rule
name: any earlier rule either has a strictly smaller category index or the
same index and a name that precedes or equals the later rule's name. -/
theorem registerRule_keeps_rules_sorted (r : Rule) (s : RegistryState) :
    (registerRule r s).rules.Pairwise (fun a b =>
      ruleTypeIndex a.ruleType < ruleTypeIndex b.ruleType ∨
        (ruleTypeIndex a.ruleType = ruleTypeIndex b.ruleType ∧ textLE a.name b.name = true)) := by
  have h : ((s.rules ++ [r]).insertionSort ruleLEProp).Pairwise ruleLEProp :=
    List.sorted_insertionSort ruleLEProp (s.rules ++ [r])
  refine List.Pairwise.imp ?_ h
  intro a b hab
  unfold ruleLEProp ruleCompareLE at hab
  simp only [Bool.or_eq_true, Bool.and_eq_true, decide_eq_true_eq] at hab
  exact hab

/-! Lookup lemmas for the in-place-overwriting association maps. -/

theorem dictInsertRule_lookup_self (d : List (Text × Rule)) (k : Text) (v : Rule) :
    (dictInsertRule d k v).lookup k = some v := by
  induction d with
  | nil => simp [dictInsertRule, List.lookup]
  | cons p rest ih =>
    obtain ⟨k2, v2⟩ := p
    by_cases h : k2 = k
    · simp [dictInsertRule, h, List.lookup]
    · have hne : (k == k2) = false := by simp [Ne.symm h]
      simp [dictInsertRule, h, List.lookup, hne, ih]

theorem dictInsertOpt_lookup_self (d : List (Text × OptVal)) (k : Text) (v : OptVal) :
    (dictInsertOpt d k v).lookup k = some v := by
  induction d with
  | nil => simp [dictInsertOpt, List.lookup]
  | cons p rest ih =>
    obtain ⟨k2, v2⟩ := p
    by_cases h : k2 = k
    · simp [dictInsertOpt, h, List.lookup]
    · have hne : (k == k2) = false := by simp [Ne.symm h]
      simp [dictInsertOpt, h, List.lookup, hne, ih]

theorem dictInsertOpt_lookup_other (d : List (Text × OptVal)) (k : Text) (v : OptVal)
    (n : Text) (h : n ≠ k) : (dictInsertOpt d k v).lookup n = d.lookup n := by
  have hnk : (n == k) = false := by simp [h]
  induction d with
  | nil => simp [dictInsertOpt, List.lookup, hnk]
  | cons p rest ih =>
    obtain ⟨k2, v2⟩ := p
    by_cases hk : k2 = k
    · subst hk
      simp [dictInsertOpt, List.lookup, hnk]
    · simp [dictInsertOpt, hk, List.lookup, ih]

theorem foldl_insert_preserve (l : List RuleOption) (acc : List (Text × OptVal)) (n : Text)
    (h : n ∉ l.map RuleOption.name) :
    (l.foldl (fun acc o => dictInsertOpt acc o.name o.defaultValue) acc).lookup n =
      acc.lookup n := by
  induction l generalizing acc with
  | nil => rfl
  | cons o rest ih =>
    simp only [List.foldl]
    have hn : n ∉ rest.map RuleOption.name := by
      intro hmem
      exact h (by simp [hmem])
    have hno : n ≠ o.name := by
      intro he
      exact h (by simp [he])
    rw [ih _ hn, dictInsertOpt_lookup_other _ _ _ _ hno]

theorem foldl_insert_lookup (l : List RuleOption) (acc : List (Text × OptVal))
    (hnd : (l.map RuleOption.name).Nodup) :
    ∀ o ∈ l,
      (l.foldl (fun acc o => dictInsertOpt acc o.name o.defaultValue) acc).lookup o.name =
        some o.defaultValue := by
  induction l generalizing acc with
  | nil => intro o ho; simp at ho
  | cons o0 rest ih =>
    intro o ho
    simp only [List.map, List.nodup_cons] at hnd
    simp only [List.foldl]
    rcases List.mem_cons.mp ho with he | hm
    · subst he
      rw [foldl_insert_preserve _ _ _ hnd.1, dictInsertOpt_lookup_self]
    · exact ih _ hnd.2 o hm

/-- C6, amended: registering a rule whose alias collides with an earlier
registration raises no error; afterwards the alias map binds the shared
alias to the later rule (silent overwrite) and the ordered list holds both
rules. -/
theorem registerRule_duplicate_alias_overwrites (r1 r2 : Rule) (s : RegistryState)
    (h : ruleAlias r1 = ruleAlias r2) :
    (registerRule r2 (registerRule r1 s)).rulesDict.lookup (ruleAlias r1) = some r2 ∧
      (registerRule r2 (registerRule r1 s)).rules.length = s.rules.length + 2 := by
  constructor
  · show (dictInsertRule (registerRule r1 s).rulesDict (ruleAlias r2) r2).lookup
        (ruleAlias r1) = some r2
    rw [h]
    exact dictInsertRule_lookup_self _ _ _
  · simp [registerRule, List.length_insertionSort]

/-- Witness for the amended C6 theorem at the two colliding demo rules. -/
theorem registerRule_duplicate_alias_overwrites_witness :
    (registerRule collidingRuleB (registerRule collidingRuleA emptyRegistry)).rulesDict.lookup
        (ruleAlias collidingRuleA) = some collidingRuleB ∧
      (registerRule collidingRuleB (registerRule collidingRuleA emptyRegistry)).rules.length =
        emptyRegistry.rules.length + 2 :=
  registerRule_duplicate_alias_overwrites collidingRuleA collidingRuleB emptyRegistry (by decide)

/-- C5, amended: Rule.getOptions returns exactly the settings' stored option
map for the rule's name with no merging of defaults; the declared defaults
are exposed separately by Rule.getDefaultOptions, whose map binds every
declared option name (the auto-injected enabled option, named after the
rule's description, coming first) to its declared default value. -/
theorem getOptions_stored_and_defaults_separate (name description : Text)
    (ruleType : RuleType) (opts : List RuleOption) (special : Bool)
    (settings : LinterSettings) :
    getOptions (mkRule name description ruleType opts special) settings =
        settings.ruleConfigs.lookup name ∧
      enabledOptionName (mkRule name description ruleType opts special) = description ∧
      (((mkRule name description ruleType opts special).options.map RuleOption.name).Nodup →
        ∀ o ∈ (mkRule name description ruleType opts special).options,
          (getDefaultOptions (mkRule name description ruleType opts special)).lookup o.name =
            some o.defaultValue) := by
  refine ⟨rfl, rfl, ?_⟩
  intro hnd o ho
  exact foldl_insert_lookup _ [] hnd o ho

/-- Witness for the amended C5 theorem: the demo rule's default map binds the
enabled option to false. -/
theorem getOptions_stored_and_defaults_separate_witness :
    (getDefaultOptions demoRuleC5).lookup ("demo description".data) =
      some (OptVal.boolVal false) := by
  have h := (getOptions_stored_and_defaults_separate ("Demo Rule".data)
      ("demo description".data) RuleType.yaml [] false demoSettingsEmpty).2.2 (by decide)
  exact h (RuleOption.mk ("demo description".data) [] (OptVal.boolVal false)
    ("Demo Rule".data)) (by decide)

/-! Unfolding lemmas for getDisabledRules. -/

theorem getDisabledRules_no_block (registry : List Rule) (text : Text)
    (hm : matchYamlDoc text = none) : getDisabledRules registry text = [] := by
  unfold getDisabledRules
  rw [hm]

theorem getDisabledRules_no_key (registry : List Rule) (text : Text)
    (ls : List Text) (after : Text)
    (hm : matchYamlDoc text = some (ls, after))
    (hv : getYamlSectionValue (unlines ls) ("disabled rules".data) = none) :
    getDisabledRules registry text = [] := by
  unfold getDisabledRules
  rw [hm]
  simp only [hv]

theorem getDisabledRules_with_value (registry : List Rule) (text : Text)
    (ls : List Text) (after : Text) (v : Text)
    (hm : matchYamlDoc text = some (ls, after))
    (hv : getYamlSectionValue (unlines ls) ("disabled rules".data) = some v) :
    getDisabledRules registry text =
      match lookupYamlDoc (loadYAML (disabledRulesKeyAndValue v)) ("disabled rules".data) with
      | none => []
      | some .ynull => []
      | some (.ystr s) =>
        if s = [] then [] else if s = "all".data then registry.map ruleAlias else [s]
      | some (.yseq xs) => if "all".data ∈ xs then registry.map ruleAlias else xs := by
  unfold getDisabledRules
  rw [hm]
  simp only [hv]

/-- C4, amended: getDisabledRules returns the empty list when the document has
no leading metadata block or the block has no disabled-rules key; it returns
the alias of every registered rule when the parsed value is the scalar all
or an array containing all anywhere; otherwise it returns the parsed array
as is, or a one-element list for a non-empty scalar. -/
theorem getDisabledRules_value_cases (registry : List Rule) (text : Text) :
    (matchYamlDoc text = none → getDisabledRules registry text = []) ∧
      (∀ ls after, matchYamlDoc text = some (ls, after) →
        getYamlSectionValue (unlines ls) ("disabled rules".data) = none →
        getDisabledRules registry text = []) ∧
      (∀ ls after v, matchYamlDoc text = some (ls, after) →
        getYamlSectionValue (unlines ls) ("disabled rules".data) = some v →
        (lookupYamlDoc (loadYAML (disabledRulesKeyAndValue v)) ("disabled rules".data) =
            some (YamlScalarOrSeq.ystr ("all".data)) →
          getDisabledRules registry text = registry.map ruleAlias) ∧
        (∀ s, lookupYamlDoc (loadYAML (disabledRulesKeyAndValue v)) ("disabled rules".data) =
            some (YamlScalarOrSeq.ystr s) → s ≠ [] → s ≠ "all".data →
          getDisabledRules registry text = [s]) ∧
        (∀ xs, lookupYamlDoc (loadYAML (disabledRulesKeyAndValue v)) ("disabled rules".data) =
            some (YamlScalarOrSeq.yseq xs) → "all".data ∈ xs →
          getDisabledRules registry text = registry.map ruleAlias) ∧
        (∀ xs, lookupYamlDoc (loadYAML (disabledRulesKeyAndValue v)) ("disabled rules".data) =
            some (YamlScalarOrSeq.yseq xs) → "all".data ∉ xs →
          getDisabledRules registry text = xs)) := by
  refine ⟨getDisabledRules_no_block registry text, ?_, ?_⟩
  · intro ls after hm hv
    exact getDisabledRules_no_key registry text ls after hm hv
  · intro ls after v hm hv
    refine ⟨?_, ?_, ?_, ?_⟩
    · intro hp
      rw [getDisabledRules_with_value registry text ls after v hm hv, hp]
      simp
    · intro s hp hs1 hs2
      rw [getDisabledRules_with_value registry text ls after v hm hv, hp]
      simp [hs1, hs2]
    · intro xs hp hall
      rw [getDisabledRules_with_value registry text ls after v hm hv, hp]
      simp [hall]
    · intro xs hp hall
      rw [getDisabledRules_with_value registry text ls after v hm hv, hp]
      simp [hall]

/-- Witness for the amended C4 theorem: the scalar all disables every
registered rule. -/
theorem getDisabledRules_value_cases_witness :
    getDisabledRules disabledDemoRegistry ("---\ndisabled rules: all\n---\n".data) =
      ["rule-b".data, "rule-a".data] := by
  have h := ((getDisabledRules_value_cases disabledDemoRegistry
      ("---\ndisabled rules: all\n---\n".data)).2.2
      ["disabled rules: all".data] [] ("all".data) (by decide) (by decide)).1 (by decide)
  exact h.trans (by decide)

/-- C10: when the disabled-rules value parses to an array that contains the
string all anywhere among other entries, getDisabledRules returns the alias
of every registered rule, discarding the other entries. -/
theorem getDisabledRules_all_inside_array (registry : List Rule) (text : Text)
    (ls : List Text) (after : Text) (v : Text) (xs : List Text)
    (hm : matchYamlDoc text = some (ls, after))
    (hv : getYamlSectionValue (unlines ls) ("disabled rules".data) = some v)
    (hp : lookupYamlDoc (loadYAML (disabledRulesKeyAndValue v)) ("disabled rules".data) =
      some (YamlScalarOrSeq.yseq xs))
    (hall : "all".data ∈ xs) :
    getDisabledRules registry text = registry.map ruleAlias := by
  rw [getDisabledRules_with_value registry text ls after v hm hv, hp]
  simp [hall]

/-- Witness for C10 at a concrete array containing all among another entry. -/
theorem getDisabledRules_all_inside_array_witness :
    getDisabledRules disabledDemoRegistry ("---\ndisabled rules: [x, all]\n---\n".data) =
      ["rule-b".data, "rule-a".data] := by
  have h := getDisabledRules_all_inside_array disabledDemoRegistry
      ("---\ndisabled rules: [x, all]\n---\n".data)
      ["disabled rules: [x, all]".data] [] ("[x, all]".data) ["x".data, "all".data]
      (by decide) (by decide) (by decide) (by decide)
  exact h.trans (by decide)

/-! Restoration lemmas for the region masker. -/

theorem unmaskAux_clean (origs : List Text) (s u : Text) (hs : phOpen ∉ s) :
    unmaskAux origs none (s ++ u) = s ++ unmaskAux origs none u := by
  induction s with
  | nil => rfl
  | cons c s ih =>
    have hc : c ≠ phOpen := by
      intro he
      exact hs (he ▸ List.mem_cons_self _ _)
    have hs2 : phOpen ∉ s := fun hm => hs (List.mem_cons_of_mem _ hm)
    simp [unmaskAux, hc, ih hs2]

theorem unmaskAux_marks (origs : List Text) (i : Nat) :
    ∀ (k : Nat) (u : Text),
      unmaskAux origs (some k) (List.replicate i phMark ++ phClose :: u) =
        origs.getD (k + i) [] ++ unmaskAux origs none u := by
  induction i with
  | zero =>
    intro k u
    have h1 : phClose ≠ phMark := by decide
    simp [unmaskAux, h1]
  | succ i ih =>
    intro k u
    have hstep : unmaskAux origs (some k) (List.replicate (i + 1) phMark ++ phClose :: u) =
        unmaskAux origs (some (k + 1)) (List.replicate i phMark ++ phClose :: u) := by
      simp [List.replicate_succ, unmaskAux]
    rw [hstep, ih (k + 1) u]
    have he : k + 1 + i = k + (i + 1) := by omega
    rw [he]

theorem unmaskAux_placeholder (origs : List Text) (i : Nat) (u : Text) :
    unmaskAux origs none (placeholder i ++ u) =
      origs.getD i [] ++ unmaskAux origs none u := by
  have step : unmaskAux origs none (placeholder i ++ u) =
      unmaskAux origs (some 0) (List.replicate i phMark ++ phClose :: u) := by
    simp [placeholder, unmaskAux, List.append_assoc]
  rw [step, unmaskAux_marks origs i 0 u, Nat.zero_add]

theorem unmaskScan_renderM (origs : List Text) (m : List MSeg)
    (hclean : ∀ s, MSeg.txt s ∈ m → phOpen ∉ s) :
    unmaskScan origs (renderM m) = substM origs m := by
  induction m with
  | nil => rfl
  | cons seg rest ih =>
    have hrest : ∀ s, MSeg.txt s ∈ rest → phOpen ∉ s := fun s hm =>
      hclean s (List.mem_cons_of_mem _ hm)
    cases seg with
    | txt s =>
      have hs : phOpen ∉ s := hclean s (List.mem_cons_self _ _)
      show unmaskAux origs none (s ++ renderM rest) = s ++ substM origs rest
      rw [unmaskAux_clean origs s _ hs]
      exact congrArg (s ++ ·) (ih hrest)
    | ph i =>
      show unmaskAux origs none (placeholder i ++ renderM rest) =
        origs.getD i [] ++ substM origs rest
      rw [unmaskAux_placeholder]
      exact congrArg (origs.getD i [] ++ ·) (ih hrest)

theorem interleaveTexts_cons_head (s o : Text) (outs gs : List Text)
    (hlen : outs.length = gs.length) :
    interleaveTexts ((s ++ o) :: outs) gs = s ++ interleaveTexts (o :: outs) gs := by
  cases gs with
  | nil =>
    have : outs = [] := List.eq_nil_of_length_eq_zero hlen
    subst this
    rfl
  | cons g gs2 =>
    simp [interleaveTexts, List.append_assoc]

theorem substM_interleave (m : List MSeg) (origs : List Text) :
    ∃ outs : List Text, outs.length = (phSeq m).length + 1 ∧
      substM origs m =
        interleaveTexts outs ((phSeq m).map (fun i => origs.getD i [])) := by
  induction m with
  | nil => exact ⟨[[]], rfl, rfl⟩
  | cons seg rest ih =>
    obtain ⟨outs, hlen, heq⟩ := ih
    cases outs with
    | nil => simp at hlen
    | cons o outs2 =>
      cases seg with
      | txt s =>
        have hlen2 : outs2.length = ((phSeq rest).map (fun i => origs.getD i [])).length := by
          simp only [List.length_cons] at hlen
          simp [Nat.succ_injective hlen]
        refine ⟨(s ++ o) :: outs2, by simpa [phSeq] using hlen, ?_⟩
        show s ++ substM origs rest = _
        rw [heq]
        have hph2 : phSeq (MSeg.txt s :: rest) = phSeq rest := rfl
        rw [hph2]
        exact (interleaveTexts_cons_head s o outs2 _ hlen2).symm
      | ph i =>
        refine ⟨[] :: o :: outs2, by simpa [phSeq] using hlen, ?_⟩
        show origs.getD i [] ++ substM origs rest = _
        rw [heq]
        simp [interleaveTexts, phSeq]

theorem map_getD_range (l : List Text) :
    (List.range l.length).map (fun i => l.getD i []) = l := by
  induction l with
  | nil => rfl
  | cons a l ih =>
    rw [List.length_cons, List.range_succ_eq_map, List.map_cons, List.map_map]
    have hcomp : ((fun i => (a :: l).getD i []) ∘ Nat.succ) = fun i => l.getD i [] := by
      funext i
      simp [List.getD_cons_succ]
    rw [hcomp, ih]
    rfl

/-- C1: masking safety of rewrites run through the region masker.  For every
document and ordered ignore list, if a rewrite maps the masked text to a
placeholder-respecting shape (placeholder tokens kept intact, once each, in
order, and no stray placeholder openers introduced - the inertness the spec
requires of placeholders), then the restored output interleaves the
rewrite's outside text around the protected spans verbatim: every character
inside a protected span is byte-identical in the output and only the text
outside the masked spans may change. -/
theorem ignoreListOfTypes_masking_safety (kinds : List IgnoreKind) (t : Text)
    (f : Text → Text) (m : List MSeg)
    (hclean : ∀ s, MSeg.txt s ∈ m → phOpen ∉ s)
    (hph : phSeq m = List.range (protTexts (recognize kinds t)).length)
    (hf : f (maskText (recognize kinds t)) = renderM m) :
    ∃ outs : List Text, outs.length = (protTexts (recognize kinds t)).length + 1 ∧
      ignoreListOfTypes kinds t f =
        interleaveTexts outs (protTexts (recognize kinds t)) := by
  obtain ⟨outs, hlen, heq⟩ := substM_interleave m (protTexts (recognize kinds t))
  refine ⟨outs, ?_, ?_⟩
  · rw [hlen, hph, List.length_range]
  · show unmaskScan (protTexts (recognize kinds t)) (f (maskText (recognize kinds t))) = _
    rw [hf, unmaskScan_renderM _ _ hclean, heq, hph, map_getD_range]

/-- Witness for C1: the identity rewrite through the inline-code masker on a
document with one inline code span. -/
theorem ignoreListOfTypes_masking_safety_witness :
    ∃ outs : List Text,
      outs.length = (protTexts (recognize [IgnoreKind.inlineCode] ("a `x` b".data))).length + 1 ∧
        ignoreListOfTypes [IgnoreKind.inlineCode] ("a `x` b".data) (fun s => s) =
          interleaveTexts outs (protTexts (recognize [IgnoreKind.inlineCode] ("a `x` b".data))) :=
  ignoreListOfTypes_masking_safety [IgnoreKind.inlineCode] ("a `x` b".data) (fun s => s)
    [MSeg.txt ("a ".data), MSeg.ph 0, MSeg.txt (" b".data)]
    (by
      intro s hs
      simp only [List.mem_cons, List.not_mem_nil, or_false] at hs
      rcases hs with hs | hs | hs
      · cases hs; decide
      · cases hs
      · cases hs; decide)
    (by decide) (by decide)

/-! Line splitting and joining round trips. -/

theorem splitLines_append_cons (l t : Text) (hl : '\n' ∉ l) :
    splitLines (l ++ '\n' :: t) = l :: splitLines t := by
  induction l with
  | nil => simp [splitLines]
  | cons c l ih =>
    have hc : c ≠ '\n' := by
      intro he
      exact hl (he ▸ List.mem_cons_self _ _)
    have hl2 : '\n' ∉ l := fun hm => hl (List.mem_cons_of_mem _ hm)
    simp only [List.cons_append, splitLines, hc, if_false, List.append_eq]
    rw [ih hl2]

theorem splitLines_no_nl (l : Text) (hl : '\n' ∉ l) : splitLines l = [l] := by
  induction l with
  | nil => rfl
  | cons c l ih =>
    have hc : c ≠ '\n' := by
      intro he
      exact hl (he ▸ List.mem_cons_self _ _)
    have hl2 : '\n' ∉ l := fun hm => hl (List.mem_cons_of_mem _ hm)
    simp only [splitLines, hc, if_false, ih hl2]

theorem splitLines_ne_nil (t : Text) : splitLines t ≠ [] := by
  cases t with
  | nil => simp [splitLines]
  | cons c rest =>
    by_cases hc : c = '\n'
    · simp [splitLines, hc]
    · simp only [splitLines, hc, if_false]
      cases h : splitLines rest <;> simp

theorem splitLines_unlines (ls : List Text) (h : ∀ l ∈ ls, '\n' ∉ l) :
    splitLines (unlines ls) = ls ++ [[]] := by
  induction ls with
  | nil => rfl
  | cons l ls ih =>
    have h1 : '\n' ∉ l := h l (List.mem_cons_self _ _)
    have h2 : ∀ x ∈ ls, '\n' ∉ x := fun x hx => h x (List.mem_cons_of_mem _ hx)
    show splitLines (l ++ '\n' :: unlines ls) = (l :: ls) ++ [[]]
    rw [splitLines_append_cons _ _ h1, ih h2]
    rfl

theorem toLines_unlines (ls : List Text) (h : ∀ l ∈ ls, '\n' ∉ l) :
    toLines (unlines ls) = ls := by
  unfold toLines
  rw [splitLines_unlines ls h]
  simp [List.getLast?_concat, List.dropLast_concat]

theorem splitLines_joinSep (ls : List Text) (hne : ls ≠ []) (h : ∀ l ∈ ls, '\n' ∉ l) :
    splitLines (joinSep ls) = ls := by
  induction ls with
  | nil => exact absurd rfl hne
  | cons l ls ih =>
    cases ls with
    | nil =>
      show splitLines l = [l]
      exact splitLines_no_nl l (h l (List.mem_cons_self _ _))
    | cons l2 ls2 =>
      show splitLines (l ++ '\n' :: joinSep (l2 :: ls2)) = l :: l2 :: ls2
      rw [splitLines_append_cons _ _ (h l (List.mem_cons_self _ _))]
      rw [ih (by simp) (fun x hx => h x (List.mem_cons_of_mem _ hx))]

theorem toLines_joinSep (ls : List Text) (hne : ls ≠ []) (h : ∀ l ∈ ls, '\n' ∉ l)
    (hlast : ls.getLast? ≠ some ([] : Text)) : toLines (joinSep ls) = ls := by
  unfold toLines
  rw [splitLines_joinSep ls hne h]
  simp [hlast]

theorem toLines_rejoin (e : Bool) (ls : List Text) (hne : ls ≠ [])
    (h : ∀ l ∈ ls, '\n' ∉ l) (hlast : ls.getLast? ≠ some ([] : Text)) :
    toLines (rejoinLines e ls) = ls := by
  cases e with
  | false =>
    show toLines (joinSep ls) = ls
    exact toLines_joinSep ls hne h hlast
  | true =>
    show toLines (unlines ls) = ls
    exact toLines_unlines ls h

/-! Key independence and the structure of findKeySplit. -/

theorem prefix_colon_key_eq (r : Text) :
    ∀ (k2 k : Text), ':' ∉ k2 → ':' ∉ k → (k2 ++ [':']) <+: (k ++ ':' :: r) → k2 = k := by
  intro k2
  induction k2 with
  | nil =>
    intro k _ hk hp
    cases k with
    | nil => rfl
    | cons c k1 =>
      exfalso
      have : (':' : Char) = c := ((List.cons_prefix_cons).mp hp).1
      exact hk (this ▸ List.mem_cons_self _ _)
  | cons c2 k2' ih =>
    intro k hk2 hk hp
    cases k with
    | nil =>
      exfalso
      have : c2 = ':' := ((List.cons_prefix_cons).mp hp).1
      exact hk2 (this ▸ List.mem_cons_self _ _)
    | cons c k1 =>
      have h1 := (List.cons_prefix_cons).mp hp
      have hk2' : ':' ∉ k2' := fun hm => hk2 (List.mem_cons_of_mem _ hm)
      have hk' : ':' ∉ k1 := fun hm => hk (List.mem_cons_of_mem _ hm)
      rw [h1.1, ih k1 hk2' hk' h1.2]

theorem lineHasKey_of_ne (k k2 : Text) (hk : ':' ∉ k) (hk2 : ':' ∉ k2) (hne : k2 ≠ k)
    (tail : Text) : lineHasKey k2 (k ++ ':' :: tail) = false := by
  by_contra h
  rw [Bool.not_eq_false, lineHasKey, List.isPrefixOf_iff_prefix] at h
  exact hne (prefix_colon_key_eq tail k2 k hk2 hk h)

theorem lineHasKey_indented (k : Text) (hk : WFKey k) (l : Text)
    (hl : isIndented l = true) : lineHasKey k l = false := by
  obtain ⟨hk0, _, _, hksp⟩ := hk
  cases l with
  | nil => simp [isIndented] at hl
  | cons c l' =>
    simp only [isIndented, List.head?, decide_eq_true_eq, Option.some_inj] at hl
    subst hl
    cases k with
    | nil => exact absurd rfl hk0
    | cons ck k' =>
      by_contra h
      rw [Bool.not_eq_false, lineHasKey, List.isPrefixOf_iff_prefix] at h
      have : ck = ' ' := ((List.cons_prefix_cons).mp h).1
      exact hksp (by simp [List.head?, this])

theorem findKeySplit_spec (k : Text) :
    ∀ (ls : List Text) (b : List Text) (kl : Text) (c a : List Text),
      findKeySplit k ls = some (b, kl, c, a) →
      (∀ l ∈ b, lineHasKey k l = false) ∧ lineHasKey k kl = true ∧
        ∃ rest, ls = b ++ kl :: rest ∧ c = rest.takeWhile (fun x => isIndented x) ∧
          a = rest.dropWhile (fun x => isIndented x) := by
  intro ls
  induction ls with
  | nil => intro b kl c a h; simp [findKeySplit] at h
  | cons l ls ih =>
    intro b kl c a h
    by_cases hl : lineHasKey k l = true
    · unfold findKeySplit at h
      rw [if_pos hl] at h
      simp only [Option.some.injEq, Prod.mk.injEq] at h
      obtain ⟨rfl, rfl, rfl, rfl⟩ := h
      exact ⟨by simp, hl, ls, rfl, rfl, rfl⟩
    · rw [Bool.not_eq_true] at hl
      unfold findKeySplit at h
      rw [if_neg (by simp [hl])] at h
      cases hinner : findKeySplit k ls with
      | none => rw [hinner] at h; exact absurd h (by simp)
      | some q =>
        obtain ⟨b2, kl2, c2, a2⟩ := q
        rw [hinner] at h
        simp only [Option.some.injEq, Prod.mk.injEq] at h
        obtain ⟨rfl, rfl, rfl, rfl⟩ := h
        obtain ⟨ih1, ih2, rest, ih3, ih4, ih5⟩ := ih b2 kl2 c2 a2 hinner
        refine ⟨?_, ih2, rest, ?_, ih4, ih5⟩
        · intro x hx
          rcases List.mem_cons.mp hx with he | hm
          · exact he ▸ hl
          · exact ih1 x hm
        · rw [ih3]
          rfl

theorem findKeySplit_append_none (k : Text) (x ls : List Text)
    (hx : ∀ l ∈ x, lineHasKey k l = false) (h : findKeySplit k ls = none) :
    findKeySplit k (x ++ ls) = none := by
  induction x with
  | nil => simpa using h
  | cons l x2 ih =>
    have hl : lineHasKey k l = false := hx l (List.mem_cons_self _ _)
    have hx2 : ∀ l2 ∈ x2, lineHasKey k l2 = false := fun l2 hm =>
      hx l2 (List.mem_cons_of_mem _ hm)
    rw [List.cons_append]
    unfold findKeySplit
    rw [if_neg (by simp [hl]), ih hx2]

theorem findKeySplit_append_some (k : Text) (x ls : List Text) (b : List Text) (kl : Text)
    (c a : List Text) (hx : ∀ l ∈ x, lineHasKey k l = false)
    (h : findKeySplit k ls = some (b, kl, c, a)) :
    findKeySplit k (x ++ ls) = some (x ++ b, kl, c, a) := by
  induction x with
  | nil => simpa using h
  | cons l x2 ih =>
    have hl : lineHasKey k l = false := hx l (List.mem_cons_self _ _)
    have hx2 : ∀ l2 ∈ x2, lineHasKey k l2 = false := fun l2 hm =>
      hx l2 (List.mem_cons_of_mem _ hm)
    rw [List.cons_append]
    unfold findKeySplit
    rw [if_neg (by simp [hl]), ih hx2]
    rfl

theorem getLines_cons_no_key (k l : Text) (R : List Text) (hl : lineHasKey k l = false) :
    getYamlSectionValueLines (l :: R) k = getYamlSectionValueLines R k := by
  unfold getYamlSectionValueLines
  cases h : findKeySplit k R with
  | none => simp [findKeySplit, hl, h]
  | some q =>
    obtain ⟨b, kl, c, a⟩ := q
    simp [findKeySplit, hl, h]

theorem getLines_append_no_key (k : Text) (x R : List Text)
    (hx : ∀ l ∈ x, lineHasKey k l = false) :
    getYamlSectionValueLines (x ++ R) k = getYamlSectionValueLines R k := by
  induction x with
  | nil => rfl
  | cons l x' ih =>
    have hl : lineHasKey k l = false := hx l (List.mem_cons_self _ _)
    have hx' : ∀ l2 ∈ x', lineHasKey k l2 = false := fun l2 hm =>
      hx l2 (List.mem_cons_of_mem _ hm)
    rw [List.cons_append, getLines_cons_no_key k l _ hl, ih hx']

/-! Frame lemmas: replacing one key's line span does not change another key's
value. -/

theorem toLines_single (l : Text) (h : '\n' ∉ l) : toLines (l ++ ['\n']) = [l] := by
  unfold toLines
  have hs : splitLines (l ++ ['\n']) = [l, []] := by
    have := splitLines_append_cons l [] h
    simpa [splitLines] using this
  rw [hs]
  simp

theorem lineHasKey_keyline (k kl : Text) (h : lineHasKey k kl = true) :
    ∃ tail, kl = k ++ ':' :: tail := by
  rw [lineHasKey, List.isPrefixOf_iff_prefix] at h
  obtain ⟨t, ht⟩ := h
  refine ⟨t, ?_⟩
  rw [← ht, List.append_assoc]
  rfl

theorem isIndented_keyline (k : Text) (hk : WFKey k) (t : Text) :
    isIndented (k ++ ':' :: t) = false := by
  obtain ⟨hk0, _, _, hksp⟩ := hk
  cases k with
  | nil => exact absurd rfl hk0
  | cons c k2 =>
    have hc : c ≠ ' ' := by
      intro he
      exact hksp (by simp [List.head?, he])
    simp [isIndented, List.head?, hc]

theorem takeWhile_indented_frame (u v a : List Text)
    (huh : ∀ l, u.head? = some l → isIndented l = false)
    (hvh : ∀ l, v.head? = some l → isIndented l = false)
    (hune : u ≠ []) (hvne : v ≠ []) :
    ∀ b : List Text, ((b ++ u ++ a).takeWhile (fun x => isIndented x)) =
      ((b ++ v ++ a).takeWhile (fun x => isIndented x)) := by
  intro b
  induction b with
  | nil =>
    cases u with
    | nil => exact absurd rfl hune
    | cons x u2 =>
      cases v with
      | nil => exact absurd rfl hvne
      | cons y v2 =>
        have hx : isIndented x = false := huh x rfl
        have hy : isIndented y = false := hvh y rfl
        simp [List.takeWhile_cons, hx, hy]
  | cons lb b2 ih =>
    by_cases hlb : isIndented lb = true
    · simp only [List.cons_append, List.takeWhile_cons, hlb, if_true]
      rw [ih]
    · rw [Bool.not_eq_true] at hlb
      simp [List.takeWhile_cons, hlb]

theorem getLines_mid_frame (k2 : Text) (u v a : List Text)
    (hu : ∀ l ∈ u, lineHasKey k2 l = false)
    (hv : ∀ l ∈ v, lineHasKey k2 l = false)
    (huh : ∀ l, u.head? = some l → isIndented l = false)
    (hvh : ∀ l, v.head? = some l → isIndented l = false)
    (hune : u ≠ []) (hvne : v ≠ []) :
    ∀ b : List Text, getYamlSectionValueLines (b ++ u ++ a) k2 =
      getYamlSectionValueLines (b ++ v ++ a) k2 := by
  intro b
  induction b with
  | nil =>
    rw [List.nil_append, List.nil_append, getLines_append_no_key k2 u a hu,
      getLines_append_no_key k2 v a hv]
  | cons lb b2 ih =>
    by_cases hlb : lineHasKey k2 lb = true
    · have h1 : findKeySplit k2 (lb :: (b2 ++ u ++ a)) =
          some ([], lb, (b2 ++ u ++ a).takeWhile (fun x => isIndented x),
            (b2 ++ u ++ a).dropWhile (fun x => isIndented x)) := by
        unfold findKeySplit
        rw [if_pos hlb]
      have h2 : findKeySplit k2 (lb :: (b2 ++ v ++ a)) =
          some ([], lb, (b2 ++ v ++ a).takeWhile (fun x => isIndented x),
            (b2 ++ v ++ a).dropWhile (fun x => isIndented x)) := by
        unfold findKeySplit
        rw [if_pos hlb]
      show getYamlSectionValueLines (lb :: (b2 ++ u ++ a)) k2 =
        getYamlSectionValueLines (lb :: (b2 ++ v ++ a)) k2
      unfold getYamlSectionValueLines
      rw [h1, h2, takeWhile_indented_frame u v a huh hvh hune hvne b2]
    · rw [Bool.not_eq_true] at hlb
      show getYamlSectionValueLines (lb :: (b2 ++ u ++ a)) k2 =
        getYamlSectionValueLines (lb :: (b2 ++ v ++ a)) k2
      rw [getLines_cons_no_key k2 lb _ hlb, getLines_cons_no_key k2 lb _ hlb]
      exact ih

theorem newline_keyline_eq (k w : Text) :
    k ++ ':' :: (' ' :: w) = (k ++ [':']) ++ (' ' :: w) := by
  rw [List.append_assoc]
  rfl

theorem setLines_found (ls : List Text) (k w : Text) (hk : WFKey k) (hw : '\n' ∉ w)
    (b : List Text) (kl : Text) (c a : List Text)
    (hfind : findKeySplit k ls = some (b, kl, c, a)) :
    setYamlSectionLines ls k (' ' :: w) = b ++ (k ++ ':' :: (' ' :: w)) :: a := by
  unfold setYamlSectionLines
  rw [hfind]
  have hnl : '\n' ∉ (k ++ ':' :: ' ' :: w) := by
    intro hm
    rcases List.mem_append.mp hm with h1 | h1
    · exact hk.2.2.1 h1
    · rcases List.mem_cons.mp h1 with h2 | h2
      · exact absurd h2.symm (by decide)
      · rcases List.mem_cons.mp h2 with h3 | h3
        · exact absurd h3.symm (by decide)
        · exact hw h3
  have harg : k ++ ':' :: (' ' :: w) ++ ['\n'] = (k ++ ':' :: ' ' :: w) ++ ['\n'] := by
    simp [List.append_assoc]
  rw [harg, toLines_single _ hnl]
  simp [List.append_assoc]

theorem getLines_setLines_self (ls : List Text) (k w : Text) (hk : WFKey k) (hw : '\n' ∉ w)
    (b : List Text) (kl : Text) (c a : List Text)
    (hfind : findKeySplit k ls = some (b, kl, c, a)) :
    getYamlSectionValueLines (setYamlSectionLines ls k (' ' :: w)) k = some w := by
  obtain ⟨hb, hkl, rest, hls, hc, ha⟩ := findKeySplit_spec k ls b kl c a hfind
  rw [setLines_found ls k w hk hw b kl c a hfind]
  have hline : lineHasKey k (k ++ ':' :: (' ' :: w)) = true := by
    rw [lineHasKey, List.isPrefixOf_iff_prefix, newline_keyline_eq]
    exact List.prefix_append _ _
  have hinner : findKeySplit k ((k ++ ':' :: (' ' :: w)) :: a) =
      some ([], k ++ ':' :: (' ' :: w), a.takeWhile (fun x => isIndented x),
        a.dropWhile (fun x => isIndented x)) := by
    unfold findKeySplit
    rw [if_pos hline]
  unfold getYamlSectionValueLines
  rw [findKeySplit_append_some k b _ _ _ _ _ hb hinner]
  show some (keyRawValue k (k ++ ':' :: (' ' :: w)) (a.takeWhile (fun x => isIndented x))) =
    some w
  have hdrop : (k ++ ':' :: (' ' :: w)).drop (k.length + 1) = ' ' :: w := by
    rw [newline_keyline_eq]
    have hlen : k.length + 1 = (k ++ [':']).length := by simp
    rw [hlen, List.drop_left]
  unfold keyRawValue
  rw [hdrop]
  simp

theorem getLines_setLines_other (ls : List Text) (k w k2 : Text) (hk : WFKey k)
    (hk2 : WFKey k2) (hne : k2 ≠ k) (hw : '\n' ∉ w)
    (b : List Text) (kl : Text) (c a : List Text)
    (hfind : findKeySplit k ls = some (b, kl, c, a)) :
    getYamlSectionValueLines (setYamlSectionLines ls k (' ' :: w)) k2 =
      getYamlSectionValueLines ls k2 := by
  obtain ⟨hb, hkl, rest, hls, hc, ha⟩ := findKeySplit_spec k ls b kl c a hfind
  obtain ⟨tail, htail⟩ := lineHasKey_keyline k kl hkl
  have hrest : rest = c ++ a := by
    rw [hc, ha]
    exact (List.takeWhile_append_dropWhile _ _).symm
  have hu : ∀ l ∈ kl :: c, lineHasKey k2 l = false := by
    intro l hl
    rcases List.mem_cons.mp hl with he | hm
    · rw [he, htail]
      exact lineHasKey_of_ne k k2 hk.2.1 hk2.2.1 hne tail
    · have : isIndented l = true := by
        rw [hc] at hm
        exact List.mem_takeWhile_imp hm
      exact lineHasKey_indented k2 hk2 l this
  have hv : ∀ l ∈ [k ++ ':' :: (' ' :: w)], lineHasKey k2 l = false := by
    intro l hl
    rw [List.mem_singleton.mp hl]
    exact lineHasKey_of_ne k k2 hk.2.1 hk2.2.1 hne (' ' :: w)
  have huh : ∀ l, (kl :: c).head? = some l → isIndented l = false := by
    intro l hl
    rw [List.head?_cons, Option.some_inj] at hl
    rw [← hl, htail]
    exact isIndented_keyline k hk tail
  have hvh : ∀ l, [k ++ ':' :: (' ' :: w)].head? = some l → isIndented l = false := by
    intro l hl
    rw [List.head?_cons, Option.some_inj] at hl
    rw [← hl]
    exact isIndented_keyline k hk (' ' :: w)
  have hframe := getLines_mid_frame k2 (kl :: c) [k ++ ':' :: (' ' :: w)] a
    hu hv huh hvh (by simp) (by simp) b
  rw [setLines_found ls k w hk hw b kl c a hfind, hls, hrest]
  have hshape1 : b ++ (kl :: c) ++ a = b ++ kl :: (c ++ a) := by
    rw [List.append_assoc]
    rfl
  have hshape2 : b ++ [k ++ ':' :: (' ' :: w)] ++ a = b ++ (k ++ ':' :: (' ' :: w)) :: a := by
    rw [List.append_assoc]
    rfl
  rw [hshape1, hshape2] at hframe
  exact hframe.symm

/-! Well-formedness of the matched block and its preservation by the
escaping steps. -/

theorem findYamlCloseAux_no_nl :
    ∀ (t cur : Text) (acc : List Text), '\n' ∉ cur → (∀ l ∈ acc, '\n' ∉ l) →
      ∀ (ls : List Text) (after : Text), findYamlCloseAux cur acc t = some (ls, after) →
        ∀ l ∈ ls, '\n' ∉ l := by
  intro t
  induction t with
  | nil =>
    intro cur acc hcur hacc ls after h
    unfold findYamlCloseAux at h
    by_cases hd : cur.reverse = "---".data
    · rw [if_pos hd] at h
      simp only [Option.some.injEq, Prod.mk.injEq] at h
      intro l hl
      rw [← h.1] at hl
      exact hacc l (by simpa using hl)
    · rw [if_neg hd] at h
      exact absurd h (by simp)
  | cons c rest ih =>
    intro cur acc hcur hacc ls after h
    unfold findYamlCloseAux at h
    by_cases hc : c = '\n'
    · rw [if_pos hc] at h
      by_cases hd : cur.reverse = "---".data
      · rw [if_pos hd] at h
        simp only [Option.some.injEq, Prod.mk.injEq] at h
        intro l hl
        rw [← h.1] at hl
        exact hacc l (by simpa using hl)
      · rw [if_neg hd] at h
        refine ih [] (cur.reverse :: acc) (by simp) ?_ ls after h
        intro l hl
        rcases List.mem_cons.mp hl with he | hm
        · intro hnl
          rw [he] at hnl
          exact hcur (by simpa using hnl)
        · exact hacc l hm
    · rw [if_neg hc] at h
      refine ih (c :: cur) acc ?_ hacc ls after h
      intro hm
      rcases List.mem_cons.mp hm with he | hm2
      · exact hc he.symm
      · exact hcur hm2

theorem matchYamlDoc_lines_no_nl (t : Text) (ls : List Text) (after : Text)
    (h : matchYamlDoc t = some (ls, after)) : ∀ l ∈ ls, '\n' ∉ l := by
  unfold matchYamlDoc at h
  by_cases hp : ("---\n".data).isPrefixOf t = true
  · rw [if_pos hp] at h
    exact findYamlCloseAux_no_nl (t.drop 4) [] [] (by simp) (by simp) ls after h
  · rw [Bool.not_eq_true] at hp
    rw [if_neg (by simp [hp])] at h
    exact absurd h (by simp)

theorem splitLines_unlines_append (ls : List Text) (last : Text)
    (h : ∀ l ∈ ls, '\n' ∉ l) (hlast : '\n' ∉ last) :
    splitLines (unlines ls ++ last) = ls ++ [last] := by
  induction ls with
  | nil => exact splitLines_no_nl last hlast
  | cons l ls ih =>
    have h1 : '\n' ∉ l := h l (List.mem_cons_self _ _)
    have h2 : ∀ x ∈ ls, '\n' ∉ x := fun x hx => h x (List.mem_cons_of_mem _ hx)
    show splitLines ((l ++ '\n' :: unlines ls) ++ last) = (l :: ls) ++ [last]
    rw [List.append_assoc, List.cons_append, splitLines_append_cons _ _ h1, ih h2]
    rfl

theorem block_lines (ls : List Text) (h : ∀ l ∈ ls, '\n' ∉ l) :
    toLines ("---\n".data ++ unlines ls ++ "---".data) =
      "---".data :: ls ++ ["---".data] := by
  have hshape : "---\n".data ++ unlines ls ++ "---".data =
      unlines ("---".data :: ls) ++ "---".data := by
    show ("---\n".data ++ unlines ls) ++ "---".data = _
    rfl
  rw [hshape]
  unfold toLines
  have hwf : ∀ l ∈ "---".data :: ls, '\n' ∉ l := by
    intro l hl
    rcases List.mem_cons.mp hl with he | hm
    · rw [he]; decide
    · exact h l hm
  rw [splitLines_unlines_append _ _ hwf (by decide)]
  have hlast : (("---".data :: ls ++ ["---".data])).getLast? = some ("---".data) := by
    rw [show "---".data :: ls ++ ["---".data] = ("---".data :: ls) ++ ["---".data] from rfl]
    exact List.getLast?_concat _
  have hne : ("---".data :: ls ++ ["---".data]).getLast? ≠ some ([] : Text) := by
    rw [hlast]
    simp
  show (if ("---".data :: ls ++ ["---".data]).getLast? = some ([] : Text) then
      ("---".data :: ls ++ ["---".data]).dropLast else "---".data :: ls ++ ["---".data]) =
    "---".data :: ls ++ ["---".data]
  rw [if_neg hne]

theorem block_body_wf (ls : List Text) (h : ∀ l ∈ ls, '\n' ∉ l) :
    BodyWF ("---\n".data ++ unlines ls ++ "---".data) := by
  rw [BodyWF, block_lines ls h]
  refine ⟨?_, by simp, ?_⟩
  · intro l hl
    rcases List.mem_cons.mp hl with he | hm
    · rw [he]; decide
    · rcases List.mem_append.mp hm with h1 | h1
      · exact h l h1
      · rw [List.mem_singleton.mp h1]; decide
  · rw [show "---".data :: ls ++ ["---".data] = ("---".data :: ls) ++ ["---".data] from rfl,
      List.getLast?_concat _]
    simp

theorem getLines_some_find (ls : List Text) (k v : Text)
    (h : getYamlSectionValueLines ls k = some v) :
    ∃ b kl c a, findKeySplit k ls = some (b, kl, c, a) := by
  unfold getYamlSectionValueLines at h
  cases hf : findKeySplit k ls with
  | none => rw [hf] at h; exact absurd h (by simp)
  | some q =>
    obtain ⟨b, kl, c, a⟩ := q
    exact ⟨b, kl, c, a, rfl⟩

theorem setText_spec (t k w : Text) (hwf : BodyWF t) (hk : WFKey k) (hw : '\n' ∉ w)
    (b : List Text) (kl : Text) (c a : List Text)
    (hfind : findKeySplit k (toLines t) = some (b, kl, c, a)) :
    toLines (setYamlSection t k (' ' :: w)) = setYamlSectionLines (toLines t) k (' ' :: w) ∧
      BodyWF (setYamlSection t k (' ' :: w)) := by
  obtain ⟨hwfl, hne0, hlast0⟩ := hwf
  obtain ⟨hb, hkl, rest, hls, hc, ha⟩ := findKeySplit_spec k (toLines t) b kl c a hfind
  have hrest : rest = c ++ a := by
    rw [hc, ha]
    exact (List.takeWhile_append_dropWhile _ _).symm
  have hsl : setYamlSectionLines (toLines t) k (' ' :: w) =
      b ++ (k ++ ':' :: (' ' :: w)) :: a :=
    setLines_found _ k w hk hw b kl c a hfind
  have hnlwf : '\n' ∉ (k ++ ':' :: (' ' :: w)) := by
    intro hm
    rcases List.mem_append.mp hm with h1 | h1
    · exact hk.2.2.1 h1
    · rcases List.mem_cons.mp h1 with h2 | h2
      · exact absurd h2.symm (by decide)
      · rcases List.mem_cons.mp h2 with h3 | h3
        · exact absurd h3.symm (by decide)
        · exact hw h3
  have hwf2 : ∀ l ∈ b ++ (k ++ ':' :: (' ' :: w)) :: a, '\n' ∉ l := by
    intro l hl
    rcases List.mem_append.mp hl with h1 | h1
    · exact hwfl l (by rw [hls]; exact List.mem_append_left _ h1)
    · rcases List.mem_cons.mp h1 with h2 | h2
      · rw [h2]; exact hnlwf
      · refine hwfl l ?_
        rw [hls, hrest]
        exact List.mem_append_right _ (List.mem_cons_of_mem _ (List.mem_append_right _ h2))
  have hne2 : b ++ (k ++ ':' :: (' ' :: w)) :: a ≠ [] := by simp
  have hlast2 : (b ++ (k ++ ':' :: (' ' :: w)) :: a).getLast? ≠ some ([] : Text) := by
    cases ha2 : a with
    | nil =>
      rw [List.getLast?_concat]
      simp
    | cons x a2 =>
      have h1 : b ++ (k ++ ':' :: (' ' :: w)) :: x :: a2 =
          (b ++ [k ++ ':' :: (' ' :: w)]) ++ (x :: a2) := by
        rw [List.append_assoc]
        rfl
      have h2 : toLines t = (b ++ kl :: c) ++ a := by
        rw [hls, hrest, List.append_assoc]
        rfl
      rw [h1, List.getLast?_append_of_ne_nil _ (by simp)]
      rw [h2, ha2, List.getLast?_append_of_ne_nil _ (by simp)] at hlast0
      exact hlast0
  have h1 : toLines (setYamlSection t k (' ' :: w)) =
      setYamlSectionLines (toLines t) k (' ' :: w) := by
    unfold setYamlSection
    rw [if_pos (by rw [hfind]; rfl)]
    rw [hsl]
    exact toLines_rejoin _ _ hne2 hwf2 hlast2
  refine ⟨h1, ?_, ?_, ?_⟩
  · rw [h1, hsl]
    exact hwf2
  · rw [h1, hsl]
    exact hne2
  · rw [h1, hsl]
    exact hlast2

theorem protected_false_parts (v : Text) (hp : protectedYamlValue v = false) :
    '\n' ∉ v ∧ ([' ', '['].isPrefixOf v = false) ∧
      isValueEscapedAlready v = false := by
  have h := hp
  simp [protectedYamlValue] at h
  exact ⟨h.1.1, h.1.2, h.2⟩

theorem escape_force_no_nl (v : Text) (c0 : Char) (hc : c0 ≠ '\n') (hv : '\n' ∉ v)
    (hesc : isValueEscapedAlready v = false) :
    '\n' ∉ escapeStringIfNecessaryAndPossible v c0 true := by
  unfold escapeStringIfNecessaryAndPossible
  rw [if_neg (by simp [hesc]), if_pos (by simp)]
  intro hm
  rcases List.mem_cons.mp hm with he | hm2
  · exact hc he.symm
  · rcases List.mem_append.mp hm2 with h1 | h1
    · exact hv h1
    · exact hc (List.mem_singleton.mp h1).symm

theorem forceYamlEscapeStep_wf (c0 : Char) (hc : c0 ≠ '\n') (t k : Text)
    (hwf : BodyWF t) (hk : WFKey k) : BodyWF (forceYamlEscapeStep c0 t k) := by
  unfold forceYamlEscapeStep
  cases hv : getYamlSectionValue t k with
  | none => exact hwf
  | some v =>
    show BodyWF (if protectedYamlValue v = true then t
      else setYamlSection t k (' ' :: escapeStringIfNecessaryAndPossible v c0 true))
    by_cases hp : protectedYamlValue v = true
    · rw [if_pos hp]
      exact hwf
    · rw [Bool.not_eq_true] at hp
      rw [if_neg (by simp [hp])]
      obtain ⟨hvnl, hp2, hp3⟩ := protected_false_parts v hp
      have hwnl := escape_force_no_nl v c0 hc hvnl hp3
      obtain ⟨b, kl, cc, aa, hfind⟩ := getLines_some_find (toLines t) k v hv
      exact (setText_spec t k _ hwf hk hwnl b kl cc aa hfind).2

theorem forceYamlEscapeStep_frame (c0 : Char) (hc : c0 ≠ '\n') (t k k2 : Text)
    (hwf : BodyWF t) (hk : WFKey k) (hk2 : WFKey k2) (hne : k2 ≠ k) :
    getYamlSectionValue (forceYamlEscapeStep c0 t k) k2 = getYamlSectionValue t k2 := by
  unfold forceYamlEscapeStep
  cases hv : getYamlSectionValue t k with
  | none => rfl
  | some v =>
    show getYamlSectionValue (if protectedYamlValue v = true then t
      else setYamlSection t k (' ' :: escapeStringIfNecessaryAndPossible v c0 true)) k2 =
      getYamlSectionValue t k2
    by_cases hp : protectedYamlValue v = true
    · rw [if_pos hp]
    · rw [Bool.not_eq_true] at hp
      rw [if_neg (by simp [hp])]
      obtain ⟨hvnl, hp2, hp3⟩ := protected_false_parts v hp
      have hwnl := escape_force_no_nl v c0 hc hvnl hp3
      obtain ⟨b, kl, cc, aa, hfind⟩ := getLines_some_find (toLines t) k v hv
      have hts := setText_spec t k _ hwf hk hwnl b kl cc aa hfind
      show getYamlSectionValueLines (toLines (setYamlSection t k _)) k2 = _
      rw [hts.1]
      exact getLines_setLines_other (toLines t) k _ k2 hk hk2 hne hwnl b kl cc aa hfind

theorem forceYamlEscapeStep_value (c0 : Char) (hc : c0 ≠ '\n') (t k : Text)
    (hwf : BodyWF t) (hk : WFKey k) (v : Text) (hv : getYamlSectionValue t k = some v) :
    getYamlSectionValue (forceYamlEscapeStep c0 t k) k =
      some (if protectedYamlValue v then v else c0 :: v ++ [c0]) := by
  unfold forceYamlEscapeStep
  rw [hv]
  show getYamlSectionValue (if protectedYamlValue v = true then t
      else setYamlSection t k (' ' :: escapeStringIfNecessaryAndPossible v c0 true)) k =
    some (if protectedYamlValue v = true then v else c0 :: v ++ [c0])
  by_cases hp : protectedYamlValue v = true
  · rw [if_pos hp, if_pos hp]
    exact hv
  · rw [Bool.not_eq_true] at hp
    rw [if_neg (by simp [hp]), if_neg (by simp [hp])]
    obtain ⟨hvnl, hp2, hp3⟩ := protected_false_parts v hp
    have hwnl := escape_force_no_nl v c0 hc hvnl hp3
    obtain ⟨b, kl, cc, aa, hfind⟩ := getLines_some_find (toLines t) k v hv
    have hts := setText_spec t k _ hwf hk hwnl b kl cc aa hfind
    show getYamlSectionValueLines (toLines (setYamlSection t k _)) k = _
    rw [hts.1]
    rw [getLines_setLines_self (toLines t) k _ hk hwnl b kl cc aa hfind]
    rw [Option.some_inj]
    simp [escapeStringIfNecessaryAndPossible, hp3]

theorem foldl_step_wf_frame (c0 : Char) (hc : c0 ≠ '\n') :
    ∀ (keys : List Text) (t : Text), BodyWF t → (∀ k2 ∈ keys, WFKey k2) →
      BodyWF (keys.foldl (forceYamlEscapeStep c0) t) ∧
      ∀ k, WFKey k → k ∉ keys →
        getYamlSectionValue (keys.foldl (forceYamlEscapeStep c0) t) k =
          getYamlSectionValue t k := by
  intro keys
  induction keys with
  | nil => exact fun t hwf _ => ⟨hwf, fun _ _ _ => rfl⟩
  | cons k0 rest ih =>
    intro t hwf hks
    have hk0 : WFKey k0 := hks k0 (List.mem_cons_self _ _)
    have hrest : ∀ k2 ∈ rest, WFKey k2 := fun k2 hm => hks k2 (List.mem_cons_of_mem _ hm)
    have hwf1 : BodyWF (forceYamlEscapeStep c0 t k0) :=
      forceYamlEscapeStep_wf c0 hc t k0 hwf hk0
    obtain ⟨ihwf, ihframe⟩ := ih (forceYamlEscapeStep c0 t k0) hwf1 hrest
    refine ⟨ihwf, ?_⟩
    intro k hkwf hknotin
    have hkne : k ≠ k0 := fun he => hknotin (by rw [he]; exact List.mem_cons_self _ _)
    have hknr : k ∉ rest := fun hm2 => hknotin (List.mem_cons_of_mem _ hm2)
    rw [List.foldl_cons, ihframe k hkwf hknr,
      forceYamlEscapeStep_frame c0 hc t k0 k hwf hk0 hkwf hkne]

theorem foldl_step_value (c0 : Char) (hc : c0 ≠ '\n') :
    ∀ (keys : List Text) (t : Text), BodyWF t → (∀ k2 ∈ keys, WFKey k2) → keys.Nodup →
      ∀ k ∈ keys, ∀ v, getYamlSectionValue t k = some v →
        getYamlSectionValue (keys.foldl (forceYamlEscapeStep c0) t) k =
          some (if protectedYamlValue v then v else c0 :: v ++ [c0]) := by
  intro keys
  induction keys with
  | nil => intro t _ _ _ k hk; exact absurd hk (by simp)
  | cons k0 rest ih =>
    intro t hwf hks hnd k hkmem v hv
    have hk0 : WFKey k0 := hks k0 (List.mem_cons_self _ _)
    have hrest : ∀ k2 ∈ rest, WFKey k2 := fun k2 hm => hks k2 (List.mem_cons_of_mem _ hm)
    have hwf1 : BodyWF (forceYamlEscapeStep c0 t k0) :=
      forceYamlEscapeStep_wf c0 hc t k0 hwf hk0
    rw [List.foldl_cons]
    rcases List.mem_cons.mp hkmem with he | hm
    · rw [he] at hv
      rw [he]
      have hk0nr : k0 ∉ rest := (List.nodup_cons.mp hnd).1
      have hfr := (foldl_step_wf_frame c0 hc rest (forceYamlEscapeStep c0 t k0)
        hwf1 hrest).2 k0 hk0 hk0nr
      rw [hfr]
      exact forceYamlEscapeStep_value c0 hc t k0 hwf hk0 v hv
    · have hkne : k ≠ k0 := by
        intro he2
        exact (List.nodup_cons.mp hnd).1 (he2 ▸ hm)
      have hv1 : getYamlSectionValue (forceYamlEscapeStep c0 t k0) k = some v := by
        rw [forceYamlEscapeStep_frame c0 hc t k0 k hwf hk0 (hrest k hm) hkne]
        exact hv
      exact ih (forceYamlEscapeStep c0 t k0) hwf1 hrest (List.nodup_cons.mp hnd).2 k hm v hv1

/-- C9 counterexample: the claim says a value that begins as a single-line
bracketed array is left byte-identical, but on `key: [a, b]` (one space after
the colon, as the store writes values) the retrieved value is the trimmed
`[a, b]`, which does not start with space-bracket, so ForceYamlEscape wraps
it in the escape character. -/
theorem forceYamlEscape_bracket_counterexample :
    forceYamlEscapeApply "---\nkey: [a, b]\n---\n".data
        (ForceYamlEscapeOptions.mk '"' ["key".data]) =
      "---\nkey: \"[a, b]\"\n---\n".data ∧
    "---\nkey: \"[a, b]\"\n---\n".data ≠ "---\nkey: [a, b]\n---\n".data := by
  exact ⟨by decide, by decide⟩

/-- C9 (amended): for a document with a leading metadata block and any key of
the forceYamlEscape option list (well-formed, pairwise distinct) whose stored
value is present, ForceYamlEscape.apply rewrites only the block (splicing a
new block over the first occurrence of the old one), and in the new block the
key's value is byte-identical when it is protected (multi-line, starts with
space-bracket after the one-space trim, or already escaped) and otherwise is
wrapped in the escape character exactly once. -/
theorem forceYamlEscape_protected_and_wrap (text : Text) (options : ForceYamlEscapeOptions)
    (hc : options.defaultEscapeCharacter ≠ '\n')
    (hks : ∀ k2 ∈ options.forceYamlEscape, WFKey k2)
    (hnd : options.forceYamlEscape.Nodup)
    (ls : List Text) (rest : Text) (hm : matchYamlDoc text = some (ls, rest))
    (k : Text) (hkmem : k ∈ options.forceYamlEscape)
    (v : Text)
    (hv : getYamlSectionValue ("---\n".data ++ unlines ls ++ "---".data) k = some v) :
    ∃ newYaml : Text,
      forceYamlEscapeApply text options =
        replaceFirst ("---\n".data ++ unlines ls ++ "---".data) newYaml text ∧
      getYamlSectionValue newYaml k =
        some (if protectedYamlValue v then v
          else options.defaultEscapeCharacter :: v ++ [options.defaultEscapeCharacter]) := by
  have hnl := matchYamlDoc_lines_no_nl text ls rest hm
  have hwf := block_body_wf ls hnl
  refine ⟨options.forceYamlEscape.foldl (forceYamlEscapeStep options.defaultEscapeCharacter)
      ("---\n".data ++ unlines ls ++ "---".data), ?_, ?_⟩
  · unfold forceYamlEscapeApply formatYAML
    rw [hm]
  · exact foldl_step_value options.defaultEscapeCharacter hc options.forceYamlEscape
      _ hwf hks hnd k hkmem v hv

theorem forceYamlEscape_protected_and_wrap_witness :
    ∃ newYaml : Text,
      forceYamlEscapeApply "---\ntitle: This is a title\n---\nbody".data
          (ForceYamlEscapeOptions.mk '"' ["title".data]) =
        replaceFirst ("---\n".data ++ unlines ["title: This is a title".data] ++ "---".data)
          newYaml "---\ntitle: This is a title\n---\nbody".data ∧
      getYamlSectionValue newYaml "title".data =
        some (if protectedYamlValue "This is a title".data then "This is a title".data
          else '"' :: "This is a title".data ++ ['"']) :=
  forceYamlEscape_protected_and_wrap "---\ntitle: This is a title\n---\nbody".data
    (ForceYamlEscapeOptions.mk '"' ["title".data]) (by decide) (by decide) (by decide)
    ["title: This is a title".data] "body".data (by decide)
    "title".data (by decide) "This is a title".data (by decide)
